import Mathlib

/-!
Verification of the release publisher script
(`scripts/release/publish_github_release_and_cask.cjs`).

The script is shallowly embedded: file contents are `List Char`, external
process results come from an explicit environment function, and every
side effect (spawn, mkdir, copy, write) is recorded in an explicit effect
trace.  JavaScript regular-expression operations used by the manifest
updater are embedded as deterministic scanners over `List Char` (the three
patterns used by the script are backtracking-free, so maximal-munch
scanning is faithful).  The embedding of `String.prototype.replace`
inserts the replacement value literally; this is faithful to JavaScript
whenever the inserted value contains no dollar sign, and theorems that
quantify over inserted values carry that hypothesis where it matters.
-/

set_option maxHeartbeats 1000000

/-! ### Characters

JavaScript `\s` also matches a few exotic unicode spaces; manifest files
are ASCII, so the embedding models the ASCII whitespace characters. -/

/-- The double-quote character, written via its code point. -/
def qt : Char := Char.ofNat 34

/-- Line feed. -/
def nlC : Char := Char.ofNat 10

/-- Carriage return. -/
def crC : Char := Char.ofNat 13

/-- ASCII whitespace, the fragment of the JavaScript `\s` class relevant
to ASCII manifest files: space, tab, LF, VT, FF, CR. -/
def isWS (c : Char) : Bool :=
  c = ' ' || c = Char.ofNat 9 || c = Char.ofNat 10 || c = Char.ofNat 11 ||
  c = Char.ofNat 12 || c = Char.ofNat 13

/-- Line terminators after which the multiline anchor `^` matches. -/
def isNL (c : Char) : Bool :=
  c = nlC || c = crC

/-- The character class `[0-9a-fA-F]` of the sha256 field pattern. -/
def isHexC (c : Char) : Bool :=
  (Char.ofNat 48 ≤ c && c ≤ Char.ofNat 57) ||
  (Char.ofNat 97 ≤ c && c ≤ Char.ofNat 102) ||
  (Char.ofNat 65 ≤ c && c ≤ Char.ofNat 70)

/-! ### Options and argument parsing (`parseArgs`, lines 33-107) -/

/-- Default repository constant `DEFAULT_REPO`. -/
def DEFAULT_REPO : String := "jlcodes99/cockpit-tools"

/-- Default cask path constant `DEFAULT_CASK_PATH`. -/
def DEFAULT_CASK_PATH : String := "Casks/cockpit-tools.rb"

/-- Default target constant `DEFAULT_TARGET`. -/
def DEFAULT_TARGET : String := "universal-apple-darwin"

/-- Default release-asset prefix constant `DEFAULT_RELEASE_ASSET_PREFIX`. -/
def DEFAULT_RELEASE_ASSET_PREFIX : String := "Cockpit.Tools"

/-- The `options` object built by `parseArgs`. -/
structure PublishOptions where
  skipBuild : Bool
  skipGh : Bool
  skipCask : Bool
  dryRun : Bool
  draft : Bool
  generateNotes : Bool
  notesFile : Option String
  tag : Option String
  repo : String
  caskPath : String
  assetPath : Option String
deriving Repr, DecidableEq

/-- The initial options literal of `parseArgs` (lines 34-46). -/
def initOptions : PublishOptions :=
  ⟨false, false, false, false, false, false, none, none,
    DEFAULT_REPO, DEFAULT_CASK_PATH, none⟩

/-- Result of `parseArgs`: printing help and exiting 0, throwing, or
returning the populated options. -/
inductive ParseResult where
  | help
  | err (msg : String)
  | ok (o : PublishOptions)
deriving Repr, DecidableEq

/-- The `while` loop of `parseArgs` (lines 49-93) followed by the
mutual-exclusion check (lines 95-97).  `requireValue` (lines 102-107)
throws when the shifted value is `undefined` (argument list exhausted) or
an empty string (falsy). -/
def parseLoop : List String → PublishOptions → ParseResult
  | [], o =>
    if o.notesFile.isSome && o.generateNotes then
      .err "Use either --notes-file or --generate-notes, not both."
    else .ok o
  | t :: rest, o =>
    if t = "--skip-build" then parseLoop rest { o with skipBuild := true }
    else if t = "--skip-gh" then parseLoop rest { o with skipGh := true }
    else if t = "--skip-cask" then parseLoop rest { o with skipCask := true }
    else if t = "--dry-run" then parseLoop rest { o with dryRun := true }
    else if t = "--draft" then parseLoop rest { o with draft := true }
    else if t = "--generate-notes" then parseLoop rest { o with generateNotes := true }
    else if t = "--notes-file" then
      match rest with
      | [] => .err ("Missing value for " ++ t)
      | v :: rest2 =>
        if v = "" then .err ("Missing value for " ++ t)
        else parseLoop rest2 { o with notesFile := some v }
    else if t = "--tag" then
      match rest with
      | [] => .err ("Missing value for " ++ t)
      | v :: rest2 =>
        if v = "" then .err ("Missing value for " ++ t)
        else parseLoop rest2 { o with tag := some v }
    else if t = "--repo" then
      match rest with
      | [] => .err ("Missing value for " ++ t)
      | v :: rest2 =>
        if v = "" then .err ("Missing value for " ++ t)
        else parseLoop rest2 { o with repo := v }
    else if t = "--cask" then
      match rest with
      | [] => .err ("Missing value for " ++ t)
      | v :: rest2 =>
        if v = "" then .err ("Missing value for " ++ t)
        else parseLoop rest2 { o with caskPath := v }
    else if t = "--asset-path" then
      match rest with
      | [] => .err ("Missing value for " ++ t)
      | v :: rest2 =>
        if v = "" then .err ("Missing value for " ++ t)
        else parseLoop rest2 { o with assetPath := some v }
    else if t = "-h" || t = "--help" then .help
    else .err ("Unknown argument: " ++ t)

/-- `parseArgs(rawArgs)`. -/
def parseArgs (rawArgs : List String) : ParseResult :=
  parseLoop rawArgs initOptions

/-! Valid (non-help) flag units of the command line grammar, used to
state claims that quantify over well-formed flag combinations. -/

/-- One recognized non-help flag, together with its value when it takes
one. -/
inductive CliFlag where
  | skipBuild | skipGh | skipCask | dryRun | draft | generateNotes
  | notesFile (v : String)
  | tagF (v : String)
  | repoF (v : String)
  | caskF (v : String)
  | assetPathF (v : String)
deriving Repr, DecidableEq

/-- Raw tokens contributed by one flag unit. -/
def renderFlag : CliFlag → List String
  | .skipBuild => ["--skip-build"]
  | .skipGh => ["--skip-gh"]
  | .skipCask => ["--skip-cask"]
  | .dryRun => ["--dry-run"]
  | .draft => ["--draft"]
  | .generateNotes => ["--generate-notes"]
  | .notesFile v => ["--notes-file", v]
  | .tagF v => ["--tag", v]
  | .repoF v => ["--repo", v]
  | .caskF v => ["--cask", v]
  | .assetPathF v => ["--asset-path", v]

/-- Raw argument list of a sequence of flag units. -/
def renderArgs (fl : List CliFlag) : List String :=
  (fl.map renderFlag).flatten

/-- A flag unit is well-formed when its value, if any, is nonempty
(an empty string is falsy in `requireValue`). -/
def flagOk : CliFlag → Bool
  | .notesFile v => v ≠ ""
  | .tagF v => v ≠ ""
  | .repoF v => v ≠ ""
  | .caskF v => v ≠ ""
  | .assetPathF v => v ≠ ""
  | _ => true

/-- Effect of one flag unit on the options record. -/
def applyFlag (o : PublishOptions) : CliFlag → PublishOptions
  | .skipBuild => { o with skipBuild := true }
  | .skipGh => { o with skipGh := true }
  | .skipCask => { o with skipCask := true }
  | .dryRun => { o with dryRun := true }
  | .draft => { o with draft := true }
  | .generateNotes => { o with generateNotes := true }
  | .notesFile v => { o with notesFile := some v }
  | .tagF v => { o with tag := some v }
  | .repoF v => { o with repo := v }
  | .caskF v => { o with caskPath := v }
  | .assetPathF v => { o with assetPath := some v }

/-- Whether a unit is the `--notes-file` flag. -/
def isNotesFileFlag : CliFlag → Bool
  | .notesFile _ => true
  | _ => false

/-- Whether a unit is the `--generate-notes` flag. -/
def isGenerateNotesFlag : CliFlag → Bool
  | .generateNotes => true
  | _ => false

/-- Processing one well-formed unit steps the loop and applies the unit
to the accumulated options. -/
theorem parseLoop_renderFlag (f : CliFlag) (rest : List String)
    (o : PublishOptions) (hok : flagOk f = true) :
    parseLoop (renderFlag f ++ rest) o = parseLoop rest (applyFlag o f) := by
  cases f <;> cases rest <;> simp_all [renderFlag, parseLoop, applyFlag, flagOk]

/-- Processing a list of well-formed units folds them over the options. -/
theorem parseLoop_renderArgs (fl : List CliFlag) (rest : List String)
    (o : PublishOptions) (hok : ∀ f ∈ fl, flagOk f = true) :
    parseLoop (renderArgs fl ++ rest) o =
      parseLoop rest (fl.foldl applyFlag o) := by
  induction fl generalizing o with
  | nil => simp [renderArgs]
  | cons f fl ih =>
    have hf : flagOk f = true := hok f (by simp)
    have hfl : ∀ g ∈ fl, flagOk g = true := fun g hg => hok g (by simp [hg])
    simp only [renderArgs, List.map_cons, List.flatten_cons, List.append_assoc]
    rw [parseLoop_renderFlag f _ o hf]
    simpa [renderArgs] using ih (applyFlag o f) hfl

/-- The `generateNotes` field after folding a unit list. -/
theorem foldl_applyFlag_generateNotes (fl : List CliFlag) (o : PublishOptions) :
    (fl.foldl applyFlag o).generateNotes =
      (o.generateNotes || fl.any isGenerateNotesFlag) := by
  induction fl generalizing o with
  | nil => simp
  | cons f fl ih =>
    cases f <;>
      simp [applyFlag, ih, isGenerateNotesFlag, Bool.or_assoc, Bool.or_comm]

/-- The `notesFile` field after folding a unit list is set exactly when
it was already set or the list contains a `--notes-file` unit. -/
theorem foldl_applyFlag_notesFile (fl : List CliFlag) (o : PublishOptions) :
    (fl.foldl applyFlag o).notesFile.isSome =
      (o.notesFile.isSome || fl.any isNotesFileFlag) := by
  induction fl generalizing o with
  | nil => simp
  | cons f fl ih =>
    cases f <;>
      simp [applyFlag, ih, isNotesFileFlag, Bool.or_assoc, Bool.or_comm]

/-! ### Command runner (`runCommand`, lines 126-161)

External processes are modelled by an environment function mapping the
spawned command line to a `spawnSync` result.  Every `runCommand` call is
recorded as an effect; the `spawned` field is true exactly when a real
process would be spawned (that is, outside dry-run mode). -/

/-- Result of `spawnSync`: either a spawn error (program could not be
started, `result.error` set, `status` null), or a completed process with
an exit status (`none` models a null status, e.g. killed by a signal). -/
structure SpawnResult where
  error : Bool
  errMsg : String
  status : Option Int
  stdout : String
  stderr : String
deriving Repr, DecidableEq

/-- The synthetic success result returned in dry-run mode (line 138). -/
def syntheticSuccess : SpawnResult :=
  ⟨false, "", some 0, "", ""⟩

/-- The process environment: what `spawnSync` would return for a given
command line. -/
def CmdEnv : Type := List String → SpawnResult

/-- Outcome of `runCommand`: a returned result or a thrown error. -/
inductive RunOutcome where
  | ok (r : SpawnResult)
  | threw (msg : String)
deriving Repr, DecidableEq

/-- Observable effects of one pipeline run. -/
inductive Effect where
  | call (cmd : String) (args : List String) (spawned : Bool)
  | mkdir (path : String)
  | copy (src dst : String)
  | writeFile (path : String)
  | readFile (path : String)
  | hashFile (path : String)
deriving Repr, DecidableEq

/-- An effect that mutates the filesystem or spawns a process. -/
def Effect.mutating : Effect → Bool
  | .call _ _ spawned => spawned
  | .mkdir _ => true
  | .copy _ _ => true
  | .writeFile _ => true
  | _ => false

/-- The string `formatCommand(cmd, args)` (lines 122-124). -/
def formatCommand (cmd : String) (args : List String) : String :=
  String.intercalate " " (cmd :: args)

/-- The message of the error thrown on a disallowed non-zero exit
(line 157). -/
def commandFailedMsg (status : Int) (cmd : String) (args : List String) :
    String :=
  "Command failed (exit=" ++ toString status ++ "): " ++ formatCommand cmd args

/-- `runCommand(cmd, args, {dryRun, allowFailure})` (lines 126-161),
returning the recorded effect and the outcome.  In dry-run mode no
process is spawned and a synthetic success is returned; otherwise a spawn
error is rethrown unless `allowFailure` is set, and a non-zero numeric
exit status throws unless `allowFailure` is set. -/
def runCommand (env : CmdEnv) (cmd : String) (args : List String)
    (dryRun allowFailure : Bool) : List Effect × RunOutcome :=
  if dryRun then ([.call cmd args false], .ok syntheticSuccess)
  else
    let r := env (cmd :: args)
    let eff : List Effect := [.call cmd args true]
    if r.error then
      if allowFailure then (eff, .ok r) else (eff, .threw r.errMsg)
    else
      match r.status with
      | some n =>
        if n ≠ 0 && !allowFailure then
          (eff, .threw (commandFailedMsg n cmd args))
        else (eff, .ok r)
      | none => (eff, .ok r)

/-! ### Digest computer (`sha256`, lines 226-231)

The Node `crypto` SHA-256 is embedded directly from FIPS 180-4, over byte
lists, with 32-bit words as `Nat` reduced modulo `2 ^ 32`. -/

/-- Word modulus. -/
def M32 : Nat := 4294967296

/-- Addition modulo `2 ^ 32`. -/
def add32 (a b : Nat) : Nat := (a + b) % M32

/-- Right rotation of a 32-bit word. -/
def rotr32 (n x : Nat) : Nat :=
  ((x >>> n) ||| (x <<< (32 - n))) % M32

/-- The SHA-256 round constants. -/
def shaK : List Nat :=
  [1116352408, 1899447441, 3049323471, 3921009573,
   961987163, 1508970993, 2453635748, 2870763221,
   3624381080, 310598401, 607225278, 1426881987,
   1925078388, 2162078206, 2614888103, 3248222580,
   3835390401, 4022224774, 264347078, 604807628,
   770255983, 1249150122, 1555081692, 1996064986,
   2554220882, 2821834349, 2952996808, 3210313671,
   3336571891, 3584528711, 113926993, 338241895,
   666307205, 773529912, 1294757372, 1396182291,
   1695183700, 1986661051, 2177026350, 2456956037,
   2730485921, 2820302411, 3259730800, 3345764771,
   3516065817, 3600352804, 4094571909, 275423344,
   430227734, 506948616, 659060556, 883997877,
   958139571, 1322822218, 1537002063, 1747873779,
   1955562222, 2024104815, 2227730452, 2361852424,
   2428436474, 2756734187, 3204031479, 3329325298]

/-- The SHA-256 working state. -/
structure Sha256State where
  a : Nat
  b : Nat
  c : Nat
  d : Nat
  e : Nat
  f : Nat
  g : Nat
  h : Nat
deriving Repr, DecidableEq

/-- The SHA-256 initial hash value. -/
def shaH0 : Sha256State :=
  ⟨1779033703, 3144134277, 1013904242, 2773480762,
   1359893119, 2600822924, 528734635, 1541459225⟩

/-- Message padding: append `128`, zero bytes up to 56 mod 64, then the
bit length as an eight-byte big-endian integer. -/
def shaPad (msg : List Nat) : List Nat :=
  let len := msg.length
  let zeros := (119 - len % 64) % 64
  let bitLen := (len * 8) % (2 ^ 64)
  msg ++ [128] ++ List.replicate zeros 0 ++
    [bitLen / 2 ^ 56 % 256, bitLen / 2 ^ 48 % 256, bitLen / 2 ^ 40 % 256,
     bitLen / 2 ^ 32 % 256, bitLen / 2 ^ 24 % 256, bitLen / 2 ^ 16 % 256,
     bitLen / 2 ^ 8 % 256, bitLen % 256]

/-- Big-endian packing of bytes into 32-bit words. -/
def bytesToWords : List Nat → List Nat
  | b0 :: b1 :: b2 :: b3 :: rest =>
    (b0 % 256 * 16777216 + b1 % 256 * 65536 + b2 % 256 * 256 + b3 % 256) ::
      bytesToWords rest
  | _ => []

/-- Grouping of the word stream into 16-word blocks. -/
def chunk16 : List Nat → List (List Nat)
  | w0 :: w1 :: w2 :: w3 :: w4 :: w5 :: w6 :: w7 ::
    w8 :: w9 :: w10 :: w11 :: w12 :: w13 :: w14 :: w15 :: rest =>
    [w0, w1, w2, w3, w4, w5, w6, w7, w8, w9, w10, w11, w12, w13, w14, w15] ::
      chunk16 rest
  | _ => []

/-- Message-schedule extension of a 16-word block to 64 words. -/
def extendTo64 (ws : List Nat) : List Nat :=
  (List.range 48).foldl
    (fun acc _ =>
      let n := acc.length
      let w15 := acc.getD (n - 15) 0
      let w2 := acc.getD (n - 2) 0
      let s0 := (rotr32 7 w15) ^^^ (rotr32 18 w15) ^^^ (w15 >>> 3)
      let s1 := (rotr32 17 w2) ^^^ (rotr32 19 w2) ^^^ (w2 >>> 10)
      acc ++ [(acc.getD (n - 16) 0 + s0 + acc.getD (n - 7) 0 + s1) % M32])
    ws

/-- One compression round. -/
def shaRound (st : Sha256State) (kw : Nat × Nat) : Sha256State :=
  let s1 := (rotr32 6 st.e) ^^^ (rotr32 11 st.e) ^^^ (rotr32 25 st.e)
  let ch := (st.e &&& st.f) ^^^ ((M32 - 1 - st.e % M32) &&& st.g)
  let temp1 := (st.h + s1 + ch + kw.1 + kw.2) % M32
  let s0 := (rotr32 2 st.a) ^^^ (rotr32 13 st.a) ^^^ (rotr32 22 st.a)
  let maj := (st.a &&& st.b) ^^^ (st.a &&& st.c) ^^^ (st.b &&& st.c)
  let temp2 := (s0 + maj) % M32
  ⟨(temp1 + temp2) % M32, st.a, st.b, st.c,
   (st.d + temp1) % M32, st.e, st.f, st.g⟩

/-- Compression of one 16-word block into the running hash. -/
def shaCompress (h : Sha256State) (block : List Nat) : Sha256State :=
  let w := extendTo64 block
  let st := (shaK.zip w).foldl shaRound h
  ⟨add32 h.a st.a, add32 h.b st.b, add32 h.c st.c, add32 h.d st.d,
   add32 h.e st.e, add32 h.f st.f, add32 h.g st.g, add32 h.h st.h⟩

/-- Big-endian unpacking of a word into four bytes. -/
def wordBytes (w : Nat) : List Nat :=
  [w / 16777216 % 256, w / 65536 % 256, w / 256 % 256, w % 256]

/-- The 32-byte SHA-256 digest of a byte list. -/
def sha256digest (msg : List Nat) : List Nat :=
  let final := (chunk16 (bytesToWords (shaPad msg))).foldl shaCompress shaH0
  wordBytes final.a ++ wordBytes final.b ++ wordBytes final.c ++
    wordBytes final.d ++ wordBytes final.e ++ wordBytes final.f ++
    wordBytes final.g ++ wordBytes final.h

/-- The lowercase hexadecimal alphabet used by `digest("hex")`. -/
def hexAlphabet : List Char := String.toList "0123456789abcdef"

/-- Hex digit of a value below 16. -/
def hexDigit (n : Nat) : Char := hexAlphabet.getD n (Char.ofNat 48)

/-- Lowercase hex encoding of a byte list. -/
def hexEncode (bs : List Nat) : List Char :=
  bs.foldr (fun b acc => hexDigit (b / 16 % 16) :: hexDigit (b % 16) :: acc) []

/-- The embedding of `sha256(filePath)` (lines 226-231) applied to the
bytes already read from the file: the lowercase hex digest of the
content. -/
def sha256hex (msg : List Nat) : List Char :=
  hexEncode (sha256digest msg)

/-! ### Manifest field patterns (`replaceRequired` and `updateCaskFile`,
lines 304-368)

The three multiline patterns used by the script,
`^(\s*version\s+")([^"]+)(")`, `^(\s*sha256\s+")([0-9a-fA-F]+)(")` and
`^\s*url\s+"([^"]+)"`, share one shape: at a line start, greedy
whitespace, a literal keyword, mandatory whitespace, an opening quote, a
nonempty greedy value class that excludes the quote, and a closing quote.
Every greedy part is followed by a character it cannot match, so matching
at a given start position is deterministic maximal munch, and the
leftmost match is found by attempting each line-start position from left
to right exactly as the JavaScript engine does. -/

/-- Deterministic match of the shared field pattern at one position:
returns the first capture group (whitespace, keyword, whitespace, opening
quote), the value capture, and the remainder after the closing quote. -/
def matchAt (kw : List Char) (vp : Char → Bool) (s : List Char) :
    Option (List Char × List Char × List Char) :=
  let w1 := s.takeWhile isWS
  let t1 := s.dropWhile isWS
  if kw.isPrefixOf t1 then
    let t2 := t1.drop kw.length
    let w2 := t2.takeWhile isWS
    let t3 := t2.dropWhile isWS
    if w2.isEmpty then none
    else
      match t3 with
      | [] => none
      | c :: t4 =>
        if c = qt then
          let val := t4.takeWhile vp
          let t5 := t4.dropWhile vp
          if val.isEmpty then none
          else
            match t5 with
            | [] => none
            | c2 :: t6 =>
              if c2 = qt then some (w1 ++ kw ++ w2 ++ [qt], val, t6) else none
        else none
  else none

/-- First-some choice on options. -/
def orO {α : Type} (a b : Option α) : Option α :=
  match a with
  | some x => some x
  | none => b

/-- Prefix-extension of a scan result by one skipped character. -/
def withPre (c : Char)
    (o : Option (List Char × List Char × List Char × List Char)) :
    Option (List Char × List Char × List Char × List Char) :=
  o.map (fun q => (c :: q.1, q.2.1, q.2.2.1, q.2.2.2))

/-- Attempt of the pattern at the current position, allowed only at a
line start. -/
def attemptAt (kw : List Char) (vp : Char → Bool) (b : Bool)
    (s : List Char) :
    Option (List Char × List Char × List Char × List Char) :=
  if b then (matchAt kw vp s).map (fun q => ([], q.1, q.2.1, q.2.2))
  else none

/-- Leftmost multiline match: attempt the pattern at every line-start
position from left to right.  The flag records whether the current
position is a line start (the string start, or just after a line
terminator).  Returns the prefix before the match, the first group, the
value capture, and the suffix after the closing quote. -/
def scanCore (kw : List Char) (vp : Char → Bool) :
    Bool → List Char → Option (List Char × List Char × List Char × List Char)
  | b, [] => attemptAt kw vp b []
  | b, c :: t =>
    orO (attemptAt kw vp b (c :: t)) (withPre c (scanCore kw vp (isNL c) t))

/-- Leftmost match over a whole string (position 0 is a line start). -/
def scanField (kw : List Char) (vp : Char → Bool) (s : List Char) :
    Option (List Char × List Char × List Char × List Char) :=
  scanCore kw vp true s

/-- Value class of the version and url patterns: `[^"]`. -/
def vpNonQuote (c : Char) : Bool := c ≠ qt

/-- The keyword of the version pattern. -/
def kwVersion : List Char := String.toList "version"

/-- The keyword of the sha256 pattern. -/
def kwSha : List Char := String.toList "sha256"

/-- The keyword of the url pattern. -/
def kwUrl : List Char := String.toList "url"

/-- Replacement `$1<v>$3` of the leftmost match, i.e.
`content.replace(pattern, replacer)` for the version and sha patterns
(faithful for dollar-free `v`).  Returns `none` when the pattern does not
match, which is the throwing branch of `replaceRequired`. -/
def replaceField (kw : List Char) (vp : Char → Bool) (s v : List Char) :
    Option (List Char) :=
  match scanField kw vp s with
  | none => none
  | some (p, g, _, r) => some (p ++ g ++ v ++ qt :: r)

/-- The qualifier substring checked on the url value (line 341). -/
def universalQualifier : List Char := String.toList "_universal.dmg"

/-- The in-memory recomputation of the cask content done by
`updateCaskFile` (lines 323-343): substitute the version field, then the
sha256 field, then locate the url field in the substituted content and
validate its qualifier.  Errors are the messages of `replaceRequired` and
of the two url checks. -/
def recomputeCask (original version digest : List Char) :
    Except String (List Char) :=
  match replaceField kwVersion vpNonQuote original version with
  | none => .error "Failed to find version in cask file"
  | some c1 =>
    match replaceField kwSha isHexC c1 digest with
    | none => .error "Failed to find sha256 in cask file"
    | some c2 =>
      match scanField kwUrl vpNonQuote c2 with
      | none => .error "Failed to find url in cask file"
      | some (_, _, urlVal, _) =>
        if universalQualifier <:+: urlVal then .ok c2
        else .error "Cask url does not point to a _universal.dmg asset"

/-- Outcome of `updateCaskFile`: skipped, thrown error (before any
write), no write (content already matches, or dry-run preview), or a
write of the new content. -/
inductive UpdateOutcome where
  | skipped
  | err (msg : String)
  | noWrite
  | write (content : List Char)
deriving Repr, DecidableEq

/-- `updateCaskFile(version, digest, options)` (lines 311-368) applied to
the original file content.  The lines extracted for logging (345-346,
354-360) do not influence the outcome and are omitted. -/
def updateCaskFile (original version digest : List Char)
    (skipCask dryRun : Bool) : UpdateOutcome :=
  if skipCask then .skipped
  else
    match recomputeCask original version digest with
    | .error e => .err e
    | .ok updated =>
      if updated = original then .noWrite
      else if dryRun then .noWrite
      else .write updated

/-- File content after an `updateCaskFile` outcome. -/
def fileAfter (original : List Char) : UpdateOutcome → List Char
  | .write c => c
  | _ => original

/-! ### List helper lemmas for the scanner theory -/

/-- Greedy whitespace followed by a non-matching character: the take part
is the whole whitespace run. -/
theorem takeWhile_stop (p : Char → Bool) (a : List Char) (b : Char)
    (x : List Char) (ha : ∀ c ∈ a, p c = true) (hb : p b = false) :
    (a ++ b :: x).takeWhile p = a := by
  induction a with
  | nil => simp [List.takeWhile_cons, hb]
  | cons c a ih =>
    have hc : p c = true := ha c (by simp)
    simp [List.takeWhile_cons, hc, ih (fun d hd => ha d (by simp [hd]))]

/-- Companion of `takeWhile_stop` for the drop part. -/
theorem dropWhile_stop (p : Char → Bool) (a : List Char) (b : Char)
    (x : List Char) (ha : ∀ c ∈ a, p c = true) (hb : p b = false) :
    (a ++ b :: x).dropWhile p = b :: x := by
  induction a with
  | nil => simp [List.dropWhile_cons, hb]
  | cons c a ih =>
    have hc : p c = true := ha c (by simp)
    simp [List.dropWhile_cons, hc, ih (fun d hd => ha d (by simp [hd]))]

/-- When the head list contains a non-matching element, `takeWhile` over
an append never reaches the tail. -/
theorem takeWhile_append_of_exists (p : Char → Bool) (P A : List Char)
    (h : ∃ c ∈ P, p c = false) :
    (P ++ A).takeWhile p = P.takeWhile p := by
  induction P with
  | nil => obtain ⟨c, hc, _⟩ := h; cases hc
  | cons c P ih =>
    by_cases hc : p c = true
    · have hrest : ∃ d ∈ P, p d = false := by
        obtain ⟨d, hd, hpd⟩ := h
        rcases List.mem_cons.mp hd with rfl | hd2
        · exact absurd hc (by simp [hpd])
        · exact ⟨d, hd2, hpd⟩
      simp [List.takeWhile_cons, hc, ih hrest]
    · simp only [Bool.not_eq_true] at hc
      simp [List.takeWhile_cons, hc]

/-- Companion of `takeWhile_append_of_exists` for the drop part. -/
theorem dropWhile_append_of_exists (p : Char → Bool) (P A : List Char)
    (h : ∃ c ∈ P, p c = false) :
    (P ++ A).dropWhile p = P.dropWhile p ++ A := by
  induction P with
  | nil => obtain ⟨c, hc, _⟩ := h; cases hc
  | cons c P ih =>
    by_cases hc : p c = true
    · have hrest : ∃ d ∈ P, p d = false := by
        obtain ⟨d, hd, hpd⟩ := h
        rcases List.mem_cons.mp hd with rfl | hd2
        · exact absurd hc (by simp [hpd])
        · exact ⟨d, hd2, hpd⟩
      simp [List.dropWhile_cons, hc, ih hrest]
    · simp only [Bool.not_eq_true] at hc
      simp [List.dropWhile_cons, hc]

/-- A list containing a non-matching element has a nonempty `dropWhile`. -/
theorem dropWhile_ne_nil_of_exists (p : Char → Bool) (P : List Char)
    (h : ∃ c ∈ P, p c = false) : P.dropWhile p ≠ [] := by
  induction P with
  | nil => obtain ⟨c, hc, _⟩ := h; cases hc
  | cons c P ih =>
    by_cases hc : p c = true
    · have hrest : ∃ d ∈ P, p d = false := by
        obtain ⟨d, hd, hpd⟩ := h
        rcases List.mem_cons.mp hd with rfl | hd2
        · exact absurd hc (by simp [hpd])
        · exact ⟨d, hd2, hpd⟩
      simpa [List.dropWhile_cons, hc] using ih hrest
    · simp only [Bool.not_eq_true] at hc
      simp [List.dropWhile_cons, hc]

/-- The last element of an append with a nonempty right part. -/
theorem getLastQ_append (l1 l2 : List Char) (h : l2 ≠ []) :
    (l1 ++ l2).getLast? = l2.getLast? := by
  induction l1 with
  | nil => rfl
  | cons c l1 ih =>
    cases hx : l1 ++ l2 with
    | nil => exact absurd (List.append_eq_nil.mp hx).2 h
    | cons d t =>
      rw [List.cons_append, hx, List.getLast?_cons_cons, ← hx, ih]

/-- A nonempty suffix has the same last element. -/
theorem getLastQ_of_suffix (l1 l2 : List Char) (h : l2 <:+ l1)
    (hne : l2 ≠ []) : l2.getLast? = l1.getLast? := by
  obtain ⟨t, rfl⟩ := h
  exact (getLastQ_append t l2 hne).symm

/-- The value of `getLast?` is an element of the list. -/
theorem mem_of_getLastQ (l : List Char) (a : Char) (h : l.getLast? = some a) :
    a ∈ l := by
  induction l with
  | nil => cases h
  | cons c l ih =>
    cases hl : l with
    | nil => subst hl; simp [List.getLast?] at h; simp [h]
    | cons d l2 =>
      subst hl
      rw [List.getLast?_cons_cons] at h
      exact List.mem_cons_of_mem c (ih h)

/-- Boolean prefix test as an existential. -/
theorem isPrefixOf_eq_true (a b : List Char) :
    a.isPrefixOf b = true ↔ ∃ t, b = a ++ t := by
  induction a generalizing b with
  | nil => simp [List.isPrefixOf]
  | cons c a ih =>
    cases b with
    | nil => simp [List.isPrefixOf]
    | cons d b =>
      simp only [List.isPrefixOf, Bool.and_eq_true, beq_iff_eq, ih,
        List.cons_append]
      constructor
      · rintro ⟨rfl, t, rfl⟩; exact ⟨t, rfl⟩
      · rintro ⟨t, h⟩
        injection h with h1 h2
        exact ⟨h1.symm, t, h2⟩

/-- Dropping over an append, when no more than the left part is
dropped. -/
theorem drop_append_le (n : Nat) (l1 l2 : List Char) (h : n ≤ l1.length) :
    (l1 ++ l2).drop n = l1.drop n ++ l2 := by
  rw [List.drop_append_eq_append_drop, Nat.sub_eq_zero_of_le h, List.drop]

/-- Taking over an append, when no more than the left part is taken. -/
theorem take_append_le (n : Nat) (l1 l2 : List Char) (h : n ≤ l1.length) :
    (l1 ++ l2).take n = l1.take n := by
  rw [List.take_append_eq_append_take, Nat.sub_eq_zero_of_le h, List.take,
    List.append_nil]

/-- Nonempty lists have false `isEmpty`. -/
theorem isEmpty_false_of_ne_nil (l : List Char) (h : l ≠ []) :
    l.isEmpty = false := by
  cases l with
  | nil => exact absurd rfl h
  | cons c t => rfl

/-- The pattern matches at the head of a string of the matched shape,
with the expected groups. -/
theorem matchAt_complete (kw : List Char) (vp : Char → Bool)
    (w1 w2 val rest : List Char) (kh : Char) (kt : List Char)
    (hkw : kw = kh :: kt) (hkh : isWS kh = false)
    (hw1 : ∀ c ∈ w1, isWS c = true) (hw2 : ∀ c ∈ w2, isWS c = true)
    (hw2ne : w2 ≠ []) (hval : ∀ c ∈ val, vp c = true) (hvalne : val ≠ [])
    (hvq : vp qt = false) :
    matchAt kw vp (w1 ++ kw ++ w2 ++ qt :: (val ++ qt :: rest)) =
      some (w1 ++ kw ++ w2 ++ [qt], val, rest) := by
  have hq : isWS qt = false := by decide
  have h1 : (w1 ++ kw ++ w2 ++ qt :: (val ++ qt :: rest)).takeWhile isWS
      = w1 := by
    subst hkw
    have := takeWhile_stop isWS w1 kh
      (kt ++ w2 ++ qt :: (val ++ qt :: rest)) hw1 hkh
    simpa using this
  have h2 : (w1 ++ kw ++ w2 ++ qt :: (val ++ qt :: rest)).dropWhile isWS
      = kw ++ (w2 ++ qt :: (val ++ qt :: rest)) := by
    subst hkw
    have := dropWhile_stop isWS w1 kh
      (kt ++ w2 ++ qt :: (val ++ qt :: rest)) hw1 hkh
    simpa using this
  have h3 : kw.isPrefixOf (kw ++ (w2 ++ qt :: (val ++ qt :: rest))) = true :=
    (isPrefixOf_eq_true _ _).mpr ⟨_, rfl⟩
  have h4 : (kw ++ (w2 ++ qt :: (val ++ qt :: rest))).drop kw.length
      = w2 ++ qt :: (val ++ qt :: rest) := List.drop_left kw _
  have h5 : (w2 ++ qt :: (val ++ qt :: rest)).takeWhile isWS = w2 :=
    takeWhile_stop isWS w2 qt (val ++ qt :: rest) hw2 hq
  have h6 : (w2 ++ qt :: (val ++ qt :: rest)).dropWhile isWS
      = qt :: (val ++ qt :: rest) :=
    dropWhile_stop isWS w2 qt (val ++ qt :: rest) hw2 hq
  have h7 : (val ++ qt :: rest).takeWhile vp = val :=
    takeWhile_stop vp val qt rest hval hvq
  have h8 : (val ++ qt :: rest).dropWhile vp = qt :: rest :=
    dropWhile_stop vp val qt rest hval hvq
  simp only [matchAt, h1, h2, h3, h4, h5, h6, h7, h8,
    isEmpty_false_of_ne_nil w2 hw2ne, isEmpty_false_of_ne_nil val hvalne]
  simp [List.append_assoc]

/-- Decomposition of a successful pattern match. -/
theorem matchAt_sound (kw : List Char) (vp : Char → Bool)
    (s g val t : List Char) (h : matchAt kw vp s = some (g, val, t)) :
    ∃ w1 w2, g = w1 ++ kw ++ w2 ++ [qt] ∧
      s = w1 ++ kw ++ w2 ++ qt :: (val ++ qt :: t) ∧
      (∀ c ∈ w1, isWS c = true) ∧ (∀ c ∈ w2, isWS c = true) ∧ w2 ≠ [] ∧
      (∀ c ∈ val, vp c = true) ∧ val ≠ [] := by
  simp only [matchAt] at h
  split at h
  case isFalse => cases h
  case isTrue hpre =>
  obtain ⟨t2, ht2⟩ := (isPrefixOf_eq_true _ _).mp hpre
  have hdrop : (s.dropWhile isWS).drop kw.length = t2 := by
    rw [ht2]; exact List.drop_left kw t2
  rw [hdrop] at h
  split at h
  case isTrue => cases h
  case isFalse hw2e =>
  split at h
  case h_1 => cases h
  case h_2 c t4 ht3 =>
  split at h
  case isFalse => cases h
  case isTrue hcq =>
  split at h
  case isTrue => cases h
  case isFalse hvale =>
  split at h
  case h_1 => cases h
  case h_2 c2 t6 ht5 =>
  split at h
  case isFalse => cases h
  case isTrue hc2q =>
  injection h with h9
  injection h9 with hg h10
  injection h10 with hval2 ht6
  subst hcq hc2q ht6
  refine ⟨s.takeWhile isWS, t2.takeWhile isWS, hg.symm, ?_, ?_, ?_, ?_, ?_, ?_⟩
  · have hsplit : s = s.takeWhile isWS ++ s.dropWhile isWS :=
      (List.takeWhile_append_dropWhile isWS s).symm
    have ht2split : t2 = t2.takeWhile isWS ++ t2.dropWhile isWS :=
      (List.takeWhile_append_dropWhile isWS t2).symm
    have ht4split : t4 = t4.takeWhile vp ++ t4.dropWhile vp :=
      (List.takeWhile_append_dropWhile vp t4).symm
    rw [ht5] at ht4split
    rw [ht3] at ht2split
    calc s = s.takeWhile isWS ++ s.dropWhile isWS := hsplit
      _ = s.takeWhile isWS ++ (kw ++ t2) := by rw [ht2]
      _ = s.takeWhile isWS ++ (kw ++ (t2.takeWhile isWS ++ qt :: t4)) := by
          rw [← ht2split]
      _ = _ := by
          rw [show t4 = t4.takeWhile vp ++ qt :: t6 from ht4split, ← hval2]
          simp [List.append_assoc]
  · exact fun c hc => List.mem_takeWhile_imp hc
  · exact fun c hc => List.mem_takeWhile_imp hc
  · intro hx
    rw [hx] at hw2e
    exact hw2e rfl
  · intro c hc
    rw [← hval2] at hc
    exact List.mem_takeWhile_imp hc
  · intro hx
    rw [hx] at hval2
    rw [hval2] at hvale
    exact hvale rfl

/-- Tail-replacement invariance of a failed match: if the pattern does
not match at a position whose text is a quote-terminated prefix `P`
followed by a value `X` and closing quote, it also does not match when
`X` is replaced by another value `V` of the same character class.  This
is the heart of the idempotence argument: a position that rejected the
pattern before a field substitution still rejects it afterwards. -/
theorem matchAt_none_invariant (kw : List Char) (vp : Char → Bool)
    (P X V rest1 rest2 : List Char)
    (hkq : qt ∉ kw) (hvq : vp qt = false)
    (hPq : P.getLast? = some qt) (hPw : ∃ c ∈ P, isWS c = false)
    (hX : ∀ c ∈ X, vp c = true) (hXne : X ≠ [])
    (h : matchAt kw vp (P ++ (X ++ qt :: rest1)) = none) :
    matchAt kw vp (P ++ (V ++ qt :: rest2)) = none := by
  have hqw : isWS qt = false := by decide
  have htake : ∀ A : List Char, (P ++ A).takeWhile isWS = P.takeWhile isWS :=
    fun A => takeWhile_append_of_exists isWS P A hPw
  have hdropA : ∀ A : List Char,
      (P ++ A).dropWhile isWS = P.dropWhile isWS ++ A :=
    fun A => dropWhile_append_of_exists isWS P A hPw
  have hDne : P.dropWhile isWS ≠ [] := dropWhile_ne_nil_of_exists isWS P hPw
  have hDlast : (P.dropWhile isWS).getLast? = some qt :=
    (getLastQ_of_suffix P (P.dropWhile isWS)
      (List.dropWhile_suffix isWS) hDne).trans hPq
  by_cases hlen : kw.length ≤ (P.dropWhile isWS).length
  case neg =>
    have hpre : ∀ A : List Char,
        kw.isPrefixOf (P.dropWhile isWS ++ A) = false := by
      intro A
      by_contra hx
      simp only [Bool.not_eq_false] at hx
      obtain ⟨u, hu⟩ := (isPrefixOf_eq_true _ _).mp hx
      have h1 : (P.dropWhile isWS ++ A).take (P.dropWhile isWS).length
          = P.dropWhile isWS := by
        rw [take_append_le _ _ A (le_refl _), List.take_length]
      rw [hu, take_append_le _ kw u (by omega)] at h1
      have hmem : qt ∈ P.dropWhile isWS :=
        mem_of_getLastQ _ qt hDlast
      rw [← h1] at hmem
      exact hkq (List.take_subset _ _ hmem)
    simp only [matchAt, hdropA, hpre, Bool.false_eq_true, if_false]
  case pos =>
    have hiff : ∀ A : List Char,
        kw.isPrefixOf (P.dropWhile isWS ++ A) =
          kw.isPrefixOf (P.dropWhile isWS) := by
      intro A
      by_cases hx : kw.isPrefixOf (P.dropWhile isWS) = true
      · obtain ⟨u, hu⟩ := (isPrefixOf_eq_true _ _).mp hx
        rw [hx]
        exact (isPrefixOf_eq_true _ _).mpr ⟨u ++ A, by
          rw [hu, List.append_assoc]⟩
      · simp only [Bool.not_eq_true] at hx
        rw [hx]
        by_contra hy
        simp only [Bool.not_eq_false] at hy
        obtain ⟨u, hu⟩ := (isPrefixOf_eq_true _ _).mp hy
        have h1 : (kw ++ u).take kw.length = kw := by
          rw [take_append_le _ kw u (le_refl _), List.take_length]
        rw [← hu, take_append_le _ _ A hlen] at h1
        have : kw.isPrefixOf (P.dropWhile isWS) = true :=
          (isPrefixOf_eq_true _ _).mpr ⟨(P.dropWhile isWS).drop kw.length, by
            conv_lhs => rw [← List.take_append_drop kw.length
              (P.dropWhile isWS)]
            rw [h1]⟩
        rw [this] at hx
        cases hx
    by_cases hpd : kw.isPrefixOf (P.dropWhile isWS) = true
    case neg =>
      simp only [Bool.not_eq_true] at hpd
      simp only [matchAt, hdropA, hiff, hpd, Bool.false_eq_true, if_false]
    case pos =>
      obtain ⟨D2, hD2⟩ := (isPrefixOf_eq_true _ _).mp hpd
      have hD2ne : D2 ≠ [] := by
        intro hx
        subst hx
        rw [List.append_nil] at hD2
        have hmem := mem_of_getLastQ _ qt hDlast
        rw [hD2] at hmem
        exact hkq hmem
      have hD2last : D2.getLast? = some qt :=
        (getLastQ_of_suffix (P.dropWhile isWS) D2 ⟨kw, hD2.symm⟩
          hD2ne).trans hDlast
      have hdrop2 : ∀ A : List Char,
          (P.dropWhile isWS ++ A).drop kw.length = D2 ++ A := by
        intro A
        rw [hD2, List.append_assoc, List.drop_left]
      have hD2w : ∃ c ∈ D2, isWS c = false :=
        ⟨qt, mem_of_getLastQ _ qt hD2last, hqw⟩
      have htake2 : ∀ A : List Char,
          (D2 ++ A).takeWhile isWS = D2.takeWhile isWS :=
        fun A => takeWhile_append_of_exists isWS D2 A hD2w
      have hdrop3 : ∀ A : List Char,
          (D2 ++ A).dropWhile isWS = D2.dropWhile isWS ++ A :=
        fun A => dropWhile_append_of_exists isWS D2 A hD2w
      have hD3ne : D2.dropWhile isWS ≠ [] :=
        dropWhile_ne_nil_of_exists isWS D2 hD2w
      have hD3last : (D2.dropWhile isWS).getLast? = some qt :=
        (getLastQ_of_suffix D2 (D2.dropWhile isWS)
          (List.dropWhile_suffix isWS) hD3ne).trans hD2last
      by_cases hw2 : (D2.takeWhile isWS).isEmpty = true
      case pos =>
        simp only [matchAt, hdropA, hiff, hpd, if_true, hdrop2, htake2,
          hw2, if_pos]
      case neg =>
        obtain ⟨c, D4, hD34⟩ : ∃ c D4, D2.dropWhile isWS = c :: D4 := by
          cases hx : D2.dropWhile isWS with
          | nil => exact absurd hx hD3ne
          | cons c D4 => exact ⟨c, D4, rfl⟩
        by_cases hcq : c = qt
        case neg =>
          simp only [matchAt, hdropA, hiff, hpd, if_true, hdrop2, htake2,
            hw2, Bool.false_eq_true, if_false, hdrop3, hD34,
            List.cons_append, hcq]
        case pos =>
          subst hcq
          by_cases hD4 : D4 = []
          · exfalso
            subst hD4
            have hXtake : (X ++ qt :: rest1).takeWhile vp = X :=
              takeWhile_stop vp X qt rest1 hX hvq
            have hXdrop : (X ++ qt :: rest1).dropWhile vp = qt :: rest1 :=
              dropWhile_stop vp X qt rest1 hX hvq
            simp only [matchAt, hdropA, hiff, hpd, if_true, hdrop2, htake2,
              hw2, Bool.false_eq_true, if_false, hdrop3, hD34,
              List.cons_append, List.nil_append, if_pos, hXtake, hXdrop,
              isEmpty_false_of_ne_nil X hXne] at h
            simp at h
          · have hD4last : D4.getLast? = some qt := by
              have := getLastQ_append [qt] D4 hD4
              rw [← this]
              rw [show [qt] ++ D4 = qt :: D4 from rfl, ← hD34]
              exact hD3last
            have hD4v : ∃ e ∈ D4, vp e = false :=
              ⟨qt, mem_of_getLastQ _ qt hD4last, hvq⟩
            have htake4 : ∀ A : List Char,
                (D4 ++ A).takeWhile vp = D4.takeWhile vp :=
              fun A => takeWhile_append_of_exists vp D4 A hD4v
            have hdrop5 : ∀ A : List Char,
                (D4 ++ A).dropWhile vp = D4.dropWhile vp ++ A :=
              fun A => dropWhile_append_of_exists vp D4 A hD4v
            have hD5ne : D4.dropWhile vp ≠ [] :=
              dropWhile_ne_nil_of_exists vp D4 hD4v
            by_cases hvale : (D4.takeWhile vp).isEmpty = true
            case pos =>
              simp only [matchAt, hdropA, hiff, hpd, if_true, hdrop2,
                htake2, hw2, Bool.false_eq_true, if_false, hdrop3, hD34,
                List.cons_append, if_pos, htake4, hvale]
            case neg =>
              obtain ⟨c2, D6, hD56⟩ : ∃ c2 D6, D4.dropWhile vp = c2 :: D6 := by
                cases hx : D4.dropWhile vp with
                | nil => exact absurd hx hD5ne
                | cons c2 D6 => exact ⟨c2, D6, rfl⟩
              by_cases hc2q : c2 = qt
              · exfalso
                simp only [matchAt, hdropA, hiff, hpd, if_true, hdrop2,
                  htake2, hw2, Bool.false_eq_true, if_false, hdrop3, hD34,
                  List.cons_append, if_pos, htake4, hvale, hdrop5, hD56,
                  hc2q] at h
                simp at h
              · simp only [matchAt, hdropA, hiff, hpd, if_true, hdrop2,
                  htake2, hw2, Bool.false_eq_true, if_false, hdrop3, hD34,
                  List.cons_append, if_pos, htake4, hvale, hdrop5, hD56,
                  hc2q]

/-- The pattern never matches an empty string. -/
theorem matchAt_nil (kw : List Char) (vp : Char → Bool) :
    matchAt kw vp [] = none := by
  cases kw with
  | nil => simp [matchAt, List.isPrefixOf]
  | cons kh kt => simp [matchAt, List.isPrefixOf]

/-- Characterization of a successful attempt. -/
theorem attemptAt_some (kw : List Char) (vp : Char → Bool) (b : Bool)
    (s p g val r : List Char)
    (h : attemptAt kw vp b s = some (p, g, val, r)) :
    b = true ∧ p = [] ∧ matchAt kw vp s = some (g, val, r) := by
  cases b with
  | false => rw [attemptAt] at h; simp at h
  | true =>
    rw [attemptAt, if_pos rfl] at h
    cases hm : matchAt kw vp s with
    | none => rw [hm] at h; simp at h
    | some res =>
      obtain ⟨g1, val1, r1⟩ := res
      rw [hm] at h
      simp only [Option.map_some', Option.some.injEq, Prod.mk.injEq] at h
      obtain ⟨hp, hg, hval, hr⟩ := h
      exact ⟨rfl, hp.symm, by rw [hg, hval, hr]⟩

/-- A successful match at a line start makes the attempt succeed. -/
theorem attemptAt_of_matchAt (kw : List Char) (vp : Char → Bool)
    (s g val t : List Char) (h : matchAt kw vp s = some (g, val, t)) :
    attemptAt kw vp true s = some ([], g, val, t) := by
  rw [attemptAt, if_pos rfl, h]
  rfl

/-- A failed match (or an interior position) makes the attempt fail. -/
theorem attemptAt_none (kw : List Char) (vp : Char → Bool) (b : Bool)
    (s : List Char) (h : matchAt kw vp s = none) :
    attemptAt kw vp b s = none := by
  cases b with
  | false => rfl
  | true => rw [attemptAt, if_pos rfl, h]; rfl

/-- A match at the current position makes the scan return immediately. -/
theorem scanCore_of_matchAt (kw : List Char) (vp : Char → Bool)
    (s g val t : List Char) (h : matchAt kw vp s = some (g, val, t)) :
    scanCore kw vp true s = some ([], g, val, t) := by
  cases s with
  | nil => rw [matchAt_nil] at h; cases h
  | cons c t2 =>
    rw [scanCore, attemptAt_of_matchAt kw vp _ g val t h]
    rfl

/-- A failed attempt steps the scan one character, recording it in the
prefix. -/
theorem scanCore_step_some (kw : List Char) (vp : Char → Bool)
    (b : Bool) (c : Char) (t p g val r : List Char)
    (hm : attemptAt kw vp b (c :: t) = none)
    (hs : scanCore kw vp (isNL c) t = some (p, g, val, r)) :
    scanCore kw vp b (c :: t) = some (c :: p, g, val, r) := by
  rw [scanCore, hm, hs]
  rfl

/-- Companion of `scanCore_step_some` for a failing tail scan. -/
theorem scanCore_step_none (kw : List Char) (vp : Char → Bool)
    (b : Bool) (c : Char) (t : List Char)
    (hm : attemptAt kw vp b (c :: t) = none)
    (hs : scanCore kw vp (isNL c) t = none) :
    scanCore kw vp b (c :: t) = none := by
  rw [scanCore, hm, hs]
  rfl

/-- Decomposition of a successful scan: the input splits into the
skipped prefix, the matched groups and the remainder. -/
theorem scanCore_sound (kw : List Char) (vp : Char → Bool)
    (s : List Char) : ∀ (b : Bool) (p g val r : List Char),
    scanCore kw vp b s = some (p, g, val, r) →
    ∃ w1 w2, g = w1 ++ kw ++ w2 ++ [qt] ∧
      s = p ++ (g ++ (val ++ qt :: r)) ∧
      (∀ c ∈ w1, isWS c = true) ∧ (∀ c ∈ w2, isWS c = true) ∧ w2 ≠ [] ∧
      (∀ c ∈ val, vp c = true) ∧ val ≠ [] := by
  induction s with
  | nil =>
    intro b p g val r h
    rw [scanCore] at h
    obtain ⟨_, _, hm⟩ := attemptAt_some kw vp b [] p g val r h
    rw [matchAt_nil] at hm
    cases hm
  | cons c t ih =>
    intro b p g val r h
    rw [scanCore] at h
    cases hb : attemptAt kw vp b (c :: t) with
    | some res =>
      rw [hb] at h
      rw [show orO (some res) (withPre c (scanCore kw vp (isNL c) t))
        = some res from rfl] at h
      rw [h] at hb
      obtain ⟨hbt, hp, hm⟩ := attemptAt_some kw vp b (c :: t) p g val r hb
      obtain ⟨w1, w2, hgs, hsplit, hw1, hw2, hw2ne, hvv, hvne⟩ :=
        matchAt_sound kw vp (c :: t) g val r hm
      refine ⟨w1, w2, hgs, ?_, hw1, hw2, hw2ne, hvv, hvne⟩
      rw [hp, List.nil_append, hsplit, hgs]
      simp [List.append_assoc]
    | none =>
      rw [hb] at h
      rw [show orO (none : Option (List Char × List Char × List Char ×
        List Char)) (withPre c (scanCore kw vp (isNL c) t))
        = withPre c (scanCore kw vp (isNL c) t) from rfl] at h
      cases hs : scanCore kw vp (isNL c) t with
      | none => rw [hs] at h; cases h
      | some res2 =>
        obtain ⟨p2, g2, val2, r2⟩ := res2
        rw [hs] at h
        simp only [withPre, Option.map_some', Option.some.injEq,
          Prod.mk.injEq] at h
        obtain ⟨hp, hg, hval, hr⟩ := h
        obtain ⟨w1, w2, hgs, hsplit, hw1, hw2, hw2ne, hvv, hvne⟩ :=
          ih (isNL c) p2 g2 val2 r2 hs
        refine ⟨w1, w2, ?_, ?_, hw1, hw2, hw2ne, ?_, ?_⟩
        · rw [← hg]; exact hgs
        · rw [← hp, ← hg, ← hval, ← hr, List.cons_append, ← hsplit]
        · rw [← hval]; exact hvv
        · rw [← hval]; exact hvne

/-- Replacement stability of the scan: substituting a new value for the
captured value of a successful scan leaves a string on which the scan
finds the same position, groups and remainder, now capturing the new
value.  Consequently field replacement is idempotent. -/
theorem scanCore_replace (kw : List Char) (vp : Char → Bool)
    (kh : Char) (kt : List Char) (hkw : kw = kh :: kt)
    (hkh : isWS kh = false) (hkq : qt ∉ kw) (hvq : vp qt = false)
    (s : List Char) : ∀ (b : Bool) (p g x r v : List Char),
    scanCore kw vp b s = some (p, g, x, r) →
    (∀ c ∈ v, vp c = true) → v ≠ [] →
    scanCore kw vp b (p ++ (g ++ (v ++ qt :: r))) = some (p, g, v, r) := by
  induction s with
  | nil =>
    intro b p g x r v h _ _
    rw [scanCore] at h
    obtain ⟨_, _, hm⟩ := attemptAt_some kw vp b [] p g x r h
    rw [matchAt_nil] at hm
    cases hm
  | cons c t ih =>
    intro b p g x r v h hv hvne
    rw [scanCore] at h
    cases hb : attemptAt kw vp b (c :: t) with
    | some res =>
      rw [hb] at h
      rw [show orO (some res) (withPre c (scanCore kw vp (isNL c) t))
        = some res from rfl] at h
      rw [h] at hb
      obtain ⟨hbt, hp, hm⟩ := attemptAt_some kw vp b (c :: t) p g x r hb
      obtain ⟨w1, w2, hgs, hsplit, hw1, hw2, hw2ne, hxv, hxne⟩ :=
        matchAt_sound kw vp (c :: t) g x r hm
      have hmc : matchAt kw vp (g ++ (v ++ qt :: r)) = some (g, v, r) := by
        have := matchAt_complete kw vp w1 w2 v r kh kt hkw hkh hw1 hw2
          hw2ne hv hvne hvq
        rw [hgs]
        simpa [List.append_assoc] using this
      rw [hbt, hp, List.nil_append]
      exact scanCore_of_matchAt kw vp _ g v r hmc
    | none =>
      rw [hb] at h
      rw [show orO (none : Option (List Char × List Char × List Char ×
        List Char)) (withPre c (scanCore kw vp (isNL c) t))
        = withPre c (scanCore kw vp (isNL c) t) from rfl] at h
      cases hs : scanCore kw vp (isNL c) t with
      | none => rw [hs] at h; cases h
      | some res2 =>
        obtain ⟨p2, g2, x2, r2⟩ := res2
        rw [hs] at h
        simp only [withPre, Option.map_some', Option.some.injEq,
          Prod.mk.injEq] at h
        obtain ⟨hp, hg, hx, hr⟩ := h
        obtain ⟨w1, w2, hgs, hsplit, hw1, hw2, hw2ne, hxv, hxne⟩ :=
          scanCore_sound kw vp t (isNL c) p2 g2 x2 r2 hs
        have IH := ih (isNL c) p2 g2 x2 r2 v hs hv hvne
        rw [← hp, ← hg, ← hr, List.cons_append]
        refine scanCore_step_some kw vp b c _ p2 g2 v r2 ?_ IH
        cases b with
        | false => rfl
        | true =>
          have hgne : g2 ≠ [] := by
            rw [hgs]; simp
          have hglast : ((c :: p2) ++ g2).getLast? = some qt := by
            rw [getLastQ_append (c :: p2) g2 hgne, hgs]
            rw [getLastQ_append (w1 ++ kw ++ w2) [qt] (by simp)]
            rfl
          have hgw : ∃ e ∈ (c :: p2) ++ g2, isWS e = false := by
            refine ⟨kh, ?_, hkh⟩
            rw [hgs, hkw]
            simp
          have hold : matchAt kw vp (((c :: p2) ++ g2) ++ (x2 ++ qt :: r2))
              = none := by
            have hshape : (c :: t) = ((c :: p2) ++ g2) ++ (x2 ++ qt :: r2) := by
              rw [hsplit]
              simp [List.append_assoc]
            rw [← hshape]
            obtain ⟨hmn⟩ : ∃ hx2 : matchAt kw vp (c :: t) = none, True := by
              cases hmm : matchAt kw vp (c :: t) with
              | none => exact ⟨rfl, trivial⟩
              | some res3 =>
                obtain ⟨g3, v3, r3⟩ := res3
                have := attemptAt_of_matchAt kw vp (c :: t) g3 v3 r3 hmm
                rw [hb] at this
                cases this
            exact hmn
          have hnone := matchAt_none_invariant kw vp ((c :: p2) ++ g2) x2 v
            r2 r2 hkq hvq hglast hgw hxv hxne hold
          apply attemptAt_none
          have hassoc : c :: (p2 ++ (g2 ++ (v ++ qt :: r2)))
              = ((c :: p2) ++ g2) ++ (v ++ qt :: r2) := by
            simp [List.append_assoc]
          rw [hassoc]
          exact hnone

/-! ### Auxiliary facts for the cross-field stability argument -/

/-- Whitespace characters are not the quote. -/
theorem ne_qt_of_isWS (c : Char) (h : isWS c = true) : c ≠ qt := by
  intro hx
  subst hx
  simp [isWS, qt] at h

/-- Hex digits are not the quote. -/
theorem ne_qt_of_isHexC (c : Char) (h : isHexC c = true) : c ≠ qt := by
  intro hx
  subst hx
  simp [isHexC, qt] at h

/-- Hex digits are not line terminators. -/
theorem isNL_eq_false_of_isHexC (c : Char) (h : isHexC c = true) :
    isNL c = false := by
  by_contra hx
  simp only [Bool.not_eq_false, isNL, Bool.or_eq_true, decide_eq_true_eq]
    at hx
  rcases hx with rfl | rfl
  · simp [isHexC, nlC] at h
  · simp [isHexC, crC] at h

/-- A suffix of an append splits into a suffix of the right part or a
nonempty suffix of the left part glued to the whole right part. -/
theorem suffix_append_cases (a b X : List Char) (h : X <:+ a ++ b) :
    X <:+ b ∨ ∃ a2, a2 <:+ a ∧ a2 ≠ [] ∧ X = a2 ++ b := by
  induction a with
  | nil => exact Or.inl (by simpa using h)
  | cons c a ih =>
    rw [List.cons_append] at h
    rcases List.suffix_cons_iff.mp h with rfl | h2
    · exact Or.inr ⟨c :: a, List.suffix_refl _, by simp, by simp⟩
    · rcases ih h2 with h3 | ⟨a2, ha2, hne, rfl⟩
      · exact Or.inl h3
      · exact Or.inr ⟨a2, ha2.trans (List.suffix_cons c a), hne, rfl⟩

/-- Two quote-free prefixes before a quote must agree. -/
theorem qfree_quote_split (a : List Char) :
    ∀ (b x y : List Char), (∀ c ∈ a, c ≠ qt) → (∀ c ∈ b, c ≠ qt) →
    a ++ qt :: x = b ++ qt :: y → a = b ∧ x = y := by
  induction a with
  | nil =>
    intro b x y _ hb h
    cases b with
    | nil => simpa using h
    | cons c b2 =>
      rw [List.nil_append, List.cons_append] at h
      injection h with h1 h2
      exact absurd h1.symm (hb c (by simp))
  | cons c a ih =>
    intro b x y ha hb h
    cases b with
    | nil =>
      rw [List.nil_append, List.cons_append] at h
      injection h with h1 h2
      exact absurd h1 (ha c (by simp))
    | cons c2 b2 =>
      rw [List.cons_append, List.cons_append] at h
      injection h with h1 h2
      obtain ⟨hab, hxy⟩ := ih b2 x y (fun e he => ha e (by simp [he]))
        (fun e he => hb e (by simp [he])) h2
      exact ⟨by rw [h1, hab], hxy⟩

/-- A prefix test fails when the head characters differ. -/
theorem isPrefixOf_false_of_head_ne (bh : Char) (bt : List Char)
    (dh : Char) (dt : List Char) (h : bh ≠ dh) :
    (bh :: bt).isPrefixOf (dh :: dt) = false := by
  simp [List.isPrefixOf, h]

/-- The field pattern of one keyword cannot match at any position
strictly inside (or at the whitespace prelude of) the matched group of
another keyword, when the keywords are incompatible. -/
theorem matchAt_none_at_group_suffix (kwA kwB : List Char)
    (vp2 : Char → Bool) (w1 w2 X A : List Char)
    (hw1 : ∀ c ∈ w1, isWS c = true) (hw2 : ∀ c ∈ w2, isWS c = true)
    (hkA : ∀ c ∈ kwA, isWS c = false) (hkAne : kwA ≠ [])
    (hBne : kwB ≠ []) (hBq : qt ∉ kwB)
    (hheads : kwB.head? ≠ kwA.head?)
    (hsuffix : ∀ ks u, ks <:+ kwA → ks ≠ kwA → ks ≠ [] →
      kwB.isPrefixOf (ks ++ u) = false)
    (hX : X <:+ w1 ++ (kwA ++ (w2 ++ [qt]))) (hXne : X ≠ []) :
    matchAt kwB vp2 (X ++ A) = none := by
  obtain ⟨bh, bt, rfl⟩ : ∃ bh bt, kwB = bh :: bt := by
    cases kwB with
    | nil => exact absurd rfl hBne
    | cons bh bt => exact ⟨bh, bt, rfl⟩
  obtain ⟨ah, at2, rfl⟩ : ∃ ah at2, kwA = ah :: at2 := by
    cases kwA with
    | nil => exact absurd rfl hkAne
    | cons ah at2 => exact ⟨ah, at2, rfl⟩
  have hbq : bh ≠ qt := fun hx => hBq (by simp [hx])
  have hba : bh ≠ ah := by
    intro hx
    exact hheads (by simp [hx])
  have hqws : isWS qt = false := by decide
  rcases suffix_append_cases w1 (ah :: at2 ++ (w2 ++ [qt])) X hX with
    h1 | ⟨w1s, hw1s, hw1sne, rfl⟩
  · rcases suffix_append_cases (ah :: at2) (w2 ++ [qt]) X h1 with
      h2 | ⟨ks, hks, hksne, rfl⟩
    · rcases suffix_append_cases w2 [qt] X h2 with h3 | ⟨w2s, hw2s, hw2sne, rfl⟩
      · -- X <:+ [qt], nonempty, hence X = [qt]
        have hXq : X = [qt] := by
          rcases List.suffix_cons_iff.mp h3 with rfl | h4
          · rfl
          · exact absurd (List.suffix_nil.mp h4) hXne
        subst hXq
        rw [List.singleton_append, matchAt]
        have hd : (qt :: A).dropWhile isWS = qt :: A := by
          rw [List.dropWhile_cons]
          simp [hqws]
        rw [hd, isPrefixOf_false_of_head_ne bh bt qt A hbq]
        simp
      · -- X = w2s ++ [qt], trailing whitespace then the quote
        have hw2sm : ∀ c ∈ w2s, isWS c = true :=
          fun c hc => hw2 c (hw2s.subset hc)
        have hd := dropWhile_stop isWS w2s qt A hw2sm hqws
        rw [show (w2s ++ [qt]) ++ A = w2s ++ qt :: A by simp]
        rw [matchAt, hd, isPrefixOf_false_of_head_ne bh bt qt A hbq]
        simp
    · -- X = ks ++ (w2 ++ [qt]) with ks a nonempty suffix of the keyword
      obtain ⟨kh, kt2, rfl⟩ : ∃ kh kt2, ks = kh :: kt2 := by
        cases ks with
        | nil => exact absurd rfl hksne
        | cons kh kt2 => exact ⟨kh, kt2, rfl⟩
      have hkhm : isWS kh = false := hkA kh (hks.subset (by simp))
      rw [show (kh :: kt2 ++ (w2 ++ [qt])) ++ A
        = kh :: (kt2 ++ (w2 ++ qt :: A)) by simp]
      have hd : (kh :: (kt2 ++ (w2 ++ qt :: A))).dropWhile isWS
          = kh :: (kt2 ++ (w2 ++ qt :: A)) := by
        rw [List.dropWhile_cons]
        simp [hkhm]
      rw [matchAt, hd]
      by_cases hfull : kh :: kt2 = ah :: at2
      · have hkha : kh = ah := by injection hfull with h5 h6
        rw [isPrefixOf_false_of_head_ne bh bt kh _ (by rw [hkha]; exact hba)]
        simp
      · have hfail := hsuffix (kh :: kt2) (w2 ++ qt :: A) hks hfull (by simp)
        simp only [List.cons_append] at hfail
        rw [hfail]
        simp
  · -- X = w1s ++ (kwA ++ w2 ++ [qt]) with w1s whitespace
    have hw1sm : ∀ c ∈ w1s, isWS c = true :=
      fun c hc => hw1 c (hw1s.subset hc)
    rw [show (w1s ++ (ah :: at2 ++ (w2 ++ [qt]))) ++ A
      = w1s ++ ah :: (at2 ++ (w2 ++ qt :: A)) by simp]
    have hd := dropWhile_stop isWS w1s ah (at2 ++ (w2 ++ qt :: A))
      hw1sm (hkA ah (by simp))
    rw [matchAt, hd, isPrefixOf_false_of_head_ne bh bt ah _ hba]
    simp

/-- Prefix-extension of a scan result by a skipped segment. -/
def mapPre (X : List Char)
    (o : Option (List Char × List Char × List Char × List Char)) :
    Option (List Char × List Char × List Char × List Char) :=
  o.map (fun q => (X ++ q.1, q.2.1, q.2.2.1, q.2.2.2))

/-- Empty segment extension is the identity. -/
theorem mapPre_nil (o : Option (List Char × List Char × List Char ×
    List Char)) : mapPre [] o = o := by
  cases o with
  | none => rfl
  | some q => rfl

/-- One-character extension via `withPre` as a `mapPre`. -/
theorem withPre_mapPre (c : Char) (X : List Char)
    (o : Option (List Char × List Char × List Char × List Char)) :
    withPre c (mapPre X o) = mapPre (c :: X) o := by
  cases o with
  | none => rfl
  | some q => rfl

/-- One-character extension as a singleton segment. -/
theorem withPre_eq_mapPre (c : Char)
    (o : Option (List Char × List Char × List Char × List Char)) :
    withPre c o = mapPre [c] o := by
  cases o with
  | none => rfl
  | some q => rfl

/-- Skipped-segment walk: at interior positions (line-start flag down)
the scan just walks forward over characters that contain no line
terminator. -/
theorem scanCore_walk_quiet (kwB : List Char) (vp2 : Char → Bool) :
    ∀ (X : List Char), (∀ c ∈ X, isNL c = false) →
    ∀ (A : List Char),
    scanCore kwB vp2 false (X ++ A) = mapPre X (scanCore kwB vp2 false A) := by
  intro X
  induction X with
  | nil => intro _ A; rw [List.nil_append, mapPre_nil]
  | cons c X ih =>
    intro hX A
    rw [List.cons_append, scanCore]
    have hatt : attemptAt kwB vp2 false (c :: (X ++ A)) = none := rfl
    rw [hatt]
    have hflag : isNL c = false := hX c (by simp)
    rw [show orO (none : Option (List Char × List Char × List Char ×
      List Char)) (withPre c (scanCore kwB vp2 (isNL c) (X ++ A)))
      = withPre c (scanCore kwB vp2 (isNL c) (X ++ A)) from rfl]
    rw [hflag, ih (fun e he => hX e (by simp [he])) A, withPre_mapPre]

/-- Group walk: the scan of one keyword walks over the whole matched
group of an incompatible keyword without matching, regardless of the
line-start flag. -/
theorem scanCore_walk_group (kwA kwB : List Char) (vp2 : Char → Bool)
    (w1 w2 : List Char)
    (hw1 : ∀ c ∈ w1, isWS c = true) (hw2 : ∀ c ∈ w2, isWS c = true)
    (hkA : ∀ c ∈ kwA, isWS c = false) (hkAne : kwA ≠ [])
    (hBne : kwB ≠ []) (hBq : qt ∉ kwB)
    (hheads : kwB.head? ≠ kwA.head?)
    (hsuffix : ∀ ks u, ks <:+ kwA → ks ≠ kwA → ks ≠ [] →
      kwB.isPrefixOf (ks ++ u) = false) :
    ∀ (X : List Char), X <:+ w1 ++ (kwA ++ (w2 ++ [qt])) → X ≠ [] →
    ∀ (b : Bool) (A : List Char),
    scanCore kwB vp2 b (X ++ A) = mapPre X (scanCore kwB vp2 false A) := by
  intro X
  induction X with
  | nil => intro _ hne; exact absurd rfl hne
  | cons c X ih =>
    intro hX hne b A
    rw [List.cons_append, scanCore]
    have hatt : attemptAt kwB vp2 b (c :: (X ++ A)) = none := by
      apply attemptAt_none
      have := matchAt_none_at_group_suffix kwA kwB vp2 w1 w2 (c :: X) A
        hw1 hw2 hkA hkAne hBne hBq hheads hsuffix hX (by simp)
      rw [List.cons_append] at this
      exact this
    rw [hatt]
    rw [show orO (none : Option (List Char × List Char × List Char ×
      List Char)) (withPre c (scanCore kwB vp2 (isNL c) (X ++ A)))
      = withPre c (scanCore kwB vp2 (isNL c) (X ++ A)) from rfl]
    by_cases hXe : X = []
    · subst hXe
      have hglast : (w1 ++ (kwA ++ (w2 ++ [qt]))).getLast? = some qt := by
        rw [getLastQ_append w1 _ (by simp), getLastQ_append kwA _ (by simp),
          getLastQ_append w2 [qt] (by simp)]
        rfl
      have hcq : c = qt := by
        have h1 : ([c] : List Char).getLast? = some qt :=
          (getLastQ_of_suffix _ [c] hX (by simp)).trans hglast
        simpa using h1
      rw [hcq, show isNL qt = false by decide, List.nil_append,
        withPre_eq_mapPre]
    · have hX2 : X <:+ w1 ++ (kwA ++ (w2 ++ [qt])) :=
        (List.suffix_cons c X).trans hX
      rw [ih hX2 hXe (isNL c) A, withPre_mapPre]

/-- Value walk: when the scan of a field crosses a quote-free value
segment that is terminated by a quote, any match it eventually finds
leaves the segment and its closing quote intact, so substituting a new
value after the found match preserves the segment-quote shape of the
prefix. -/
theorem scanCore_through_value (kw2 : List Char) (vp2 : Char → Bool)
    (hkq : qt ∉ kw2) (hkne : kw2 ≠ [])
    (d : List Char) :
    ∀ (Y : List Char) (b : Bool) (rv p gs xs rs : List Char),
    (∀ c ∈ Y, c ≠ qt) →
    scanCore kw2 vp2 b (Y ++ qt :: rv) = some (p, gs, xs, rs) →
    ∃ Z, p ++ (gs ++ (d ++ qt :: rs)) = Y ++ qt :: Z := by
  intro Y
  induction Y with
  | nil =>
    intro b rv p gs xs rs _ h
    rw [List.nil_append, scanCore] at h
    cases hatt : attemptAt kw2 vp2 b (qt :: rv) with
    | some res =>
      rw [hatt] at h
      rw [show orO (some res) (withPre qt (scanCore kw2 vp2 (isNL qt) rv))
        = some res from rfl] at h
      rw [h] at hatt
      obtain ⟨hbt, hp, hm⟩ := attemptAt_some kw2 vp2 b _ p gs xs rs hatt
      obtain ⟨w1, w2, hgs, hsplit, hw1, hw2, hw2ne, hxv, hxne⟩ :=
        matchAt_sound kw2 vp2 _ gs xs rs hm
      exfalso
      cases hw1e : w1 with
      | nil =>
        subst hw1e
        rw [List.nil_append] at hsplit
        obtain ⟨kh, kt, rfl⟩ : ∃ kh kt, kw2 = kh :: kt := by
          cases kw2 with
          | nil => exact absurd rfl hkne
          | cons kh kt => exact ⟨kh, kt, rfl⟩
        rw [List.cons_append] at hsplit
        injection hsplit with h1 h2
        exact hkq (by simp [h1])
      | cons cw w1t =>
        subst hw1e
        rw [List.cons_append] at hsplit
        injection hsplit with h1 h2
        have := hw1 cw (by simp)
        rw [← h1] at this
        exact absurd this (by decide)
    | none =>
      rw [hatt] at h
      rw [show orO (none : Option (List Char × List Char × List Char ×
        List Char)) (withPre qt (scanCore kw2 vp2 (isNL qt) rv))
        = withPre qt (scanCore kw2 vp2 (isNL qt) rv) from rfl] at h
      rw [show isNL qt = false by decide] at h
      cases hs : scanCore kw2 vp2 false rv with
      | none => rw [hs] at h; cases h
      | some res2 =>
        obtain ⟨p2, g2, x2, r2⟩ := res2
        rw [hs] at h
        simp only [withPre, Option.map_some', Option.some.injEq,
          Prod.mk.injEq] at h
        obtain ⟨hp, hg, hx, hr⟩ := h
        refine ⟨p2 ++ (gs ++ (d ++ qt :: rs)), ?_⟩
        rw [← hp, List.cons_append, List.nil_append]
  | cons c Y ih =>
    intro b rv p gs xs rs hY h
    rw [List.cons_append, scanCore] at h
    cases hatt : attemptAt kw2 vp2 b (c :: (Y ++ qt :: rv)) with
    | some res =>
      rw [hatt] at h
      rw [show orO (some res)
        (withPre c (scanCore kw2 vp2 (isNL c) (Y ++ qt :: rv)))
        = some res from rfl] at h
      rw [h] at hatt
      obtain ⟨hbt, hp, hm⟩ := attemptAt_some kw2 vp2 b _ p gs xs rs hatt
      obtain ⟨w1, w2, hgs, hsplit, hw1, hw2, hw2ne, hxv, hxne⟩ :=
        matchAt_sound kw2 vp2 _ gs xs rs hm
      have hg0 : ∀ e ∈ w1 ++ kw2 ++ w2, e ≠ qt := by
        intro e he
        simp only [List.append_assoc, List.mem_append] at he
        rcases he with he | he | he
        · exact ne_qt_of_isWS e (hw1 e he)
        · intro hx; subst hx; exact hkq he
        · exact ne_qt_of_isWS e (hw2 e he)
      have hsplit2 : (w1 ++ kw2 ++ w2) ++ qt :: (xs ++ qt :: rs)
          = (c :: Y) ++ qt :: rv := by
        rw [← hsplit]
        simp [List.append_assoc]
      obtain ⟨hpre, hrest⟩ := qfree_quote_split (w1 ++ kw2 ++ w2)
        (c :: Y) (xs ++ qt :: rs) rv hg0 (fun e he => hY e he) hsplit2
      refine ⟨d ++ qt :: rs, ?_⟩
      rw [hp, List.nil_append, hgs, ← hpre]
      simp [List.append_assoc]
    | none =>
      rw [hatt] at h
      rw [show orO (none : Option (List Char × List Char × List Char ×
        List Char)) (withPre c (scanCore kw2 vp2 (isNL c) (Y ++ qt :: rv)))
        = withPre c (scanCore kw2 vp2 (isNL c) (Y ++ qt :: rv)) from rfl] at h
      cases hs : scanCore kw2 vp2 (isNL c) (Y ++ qt :: rv) with
      | none => rw [hs] at h; cases h
      | some res2 =>
        obtain ⟨p2, g2, x2, r2⟩ := res2
        rw [hs] at h
        simp only [withPre, Option.map_some', Option.some.injEq,
          Prod.mk.injEq] at h
        obtain ⟨hp, hg, hx, hr⟩ := h
        obtain ⟨Z, hz⟩ := ih (isNL c) rv p2 g2 x2 r2
          (fun e he => hY e (by simp [he])) hs
        refine ⟨Z, ?_⟩
        rw [← hp, ← hg, ← hr, List.cons_append, List.cons_append, hz]

/-- Group-and-value walk: a scan of one field that succeeds somewhere on
a string beginning with the matched group and substituted value of an
incompatible field leaves that group-value-quote prefix shape intact
after its own value is replaced. -/
theorem scanCore_through_group_value (kwA kwB : List Char)
    (vp2 : Char → Bool) (w1 w2 v d : List Char)
    (hw1 : ∀ c ∈ w1, isWS c = true) (hw2 : ∀ c ∈ w2, isWS c = true)
    (hkA : ∀ c ∈ kwA, isWS c = false) (hkAne : kwA ≠ [])
    (hBne : kwB ≠ []) (hBq : qt ∉ kwB)
    (hheads : kwB.head? ≠ kwA.head?)
    (hsuffix : ∀ ks u, ks <:+ kwA → ks ≠ kwA → ks ≠ [] →
      kwB.isPrefixOf (ks ++ u) = false)
    (hv : ∀ c ∈ v, c ≠ qt) :
    ∀ (X : List Char), X <:+ w1 ++ (kwA ++ (w2 ++ [qt])) →
    ∀ (b : Bool) (rv p gs xs rs : List Char),
    scanCore kwB vp2 b (X ++ (v ++ qt :: rv)) = some (p, gs, xs, rs) →
    ∃ Z, p ++ (gs ++ (d ++ qt :: rs)) = X ++ (v ++ qt :: Z) := by
  intro X
  induction X with
  | nil =>
    intro _ b rv p gs xs rs h
    rw [List.nil_append] at h
    obtain ⟨Z, hz⟩ := scanCore_through_value kwB vp2 hBq hBne d v b rv
      p gs xs rs hv h
    exact ⟨Z, by rw [List.nil_append, hz]⟩
  | cons c X ih =>
    intro hX b rv p gs xs rs h
    rw [List.cons_append, scanCore] at h
    have hatt : attemptAt kwB vp2 b (c :: (X ++ (v ++ qt :: rv))) = none := by
      apply attemptAt_none
      have := matchAt_none_at_group_suffix kwA kwB vp2 w1 w2 (c :: X)
        (v ++ qt :: rv) hw1 hw2 hkA hkAne hBne hBq hheads hsuffix hX
        (by simp)
      rw [List.cons_append] at this
      exact this
    rw [hatt] at h
    rw [show orO (none : Option (List Char × List Char × List Char ×
      List Char)) (withPre c (scanCore kwB vp2 (isNL c)
      (X ++ (v ++ qt :: rv))))
      = withPre c (scanCore kwB vp2 (isNL c) (X ++ (v ++ qt :: rv)))
      from rfl] at h
    cases hs : scanCore kwB vp2 (isNL c) (X ++ (v ++ qt :: rv)) with
    | none => rw [hs] at h; cases h
    | some res2 =>
      obtain ⟨p2, g2, x2, r2⟩ := res2
      rw [hs] at h
      simp only [withPre, Option.map_some', Option.some.injEq,
        Prod.mk.injEq] at h
      obtain ⟨hp, hg, hx, hr⟩ := h
      obtain ⟨Z, hz⟩ := ih ((List.suffix_cons c X).trans hX) (isNL c) rv
        p2 g2 x2 r2 hs
      refine ⟨Z, ?_⟩
      rw [← hp, ← hg, ← hr, List.cons_append, List.cons_append, hz]

/-- The tails of the version keyword, for suffix enumeration. -/
theorem kwVersion_tails : kwVersion.tails =
    [['v', 'e', 'r', 's', 'i', 'o', 'n'], ['e', 'r', 's', 'i', 'o', 'n'],
     ['r', 's', 'i', 'o', 'n'], ['s', 'i', 'o', 'n'], ['i', 'o', 'n'],
     ['o', 'n'], ['n'], []] := by
  decide

/-- The tails of the sha256 keyword, for suffix enumeration. -/
theorem kwSha_tails : kwSha.tails =
    [['s', 'h', 'a', '2', '5', '6'], ['h', 'a', '2', '5', '6'],
     ['a', '2', '5', '6'], ['2', '5', '6'], ['5', '6'], ['6'], []] := by
  decide

/-- The sha256 pattern cannot start inside the version keyword. -/
theorem sha_not_at_version_suffix (ks u : List Char)
    (h : ks <:+ kwVersion) (hne : ks ≠ kwVersion) (hn : ks ≠ []) :
    kwSha.isPrefixOf (ks ++ u) = false := by
  have hmem : ks ∈ kwVersion.tails := (List.mem_tails ks kwVersion).mpr h
  rw [kwVersion_tails] at hmem
  simp only [List.mem_cons, List.mem_singleton] at hmem
  rcases hmem with rfl | rfl | rfl | rfl | rfl | rfl | rfl | hlast
  · exact absurd (by decide) hne
  · simp [kwSha, List.isPrefixOf]
  · simp [kwSha, List.isPrefixOf]
  · simp [kwSha, List.isPrefixOf]
  · simp [kwSha, List.isPrefixOf]
  · simp [kwSha, List.isPrefixOf]
  · simp [kwSha, List.isPrefixOf]
  · rcases hlast with rfl | h0
    · exact absurd rfl hn
    · cases h0

/-- The version pattern cannot start inside the sha256 keyword. -/
theorem version_not_at_sha_suffix (ks u : List Char)
    (h : ks <:+ kwSha) (hne : ks ≠ kwSha) (hn : ks ≠ []) :
    kwVersion.isPrefixOf (ks ++ u) = false := by
  have hmem : ks ∈ kwSha.tails := (List.mem_tails ks kwSha).mpr h
  rw [kwSha_tails] at hmem
  simp only [List.mem_cons, List.mem_singleton] at hmem
  rcases hmem with rfl | rfl | rfl | rfl | rfl | rfl | hlast
  · exact absurd (by decide) hne
  · simp [kwVersion, List.isPrefixOf]
  · simp [kwVersion, List.isPrefixOf]
  · simp [kwVersion, List.isPrefixOf]
  · simp [kwVersion, List.isPrefixOf]
  · simp [kwVersion, List.isPrefixOf]
  · rcases hlast with rfl | h0
    · exact absurd rfl hn
    · cases h0

/-- Composition of segment extensions. -/
theorem mapPre_comp (X Y : List Char)
    (o : Option (List Char × List Char × List Char × List Char)) :
    mapPre X (mapPre Y o) = mapPre (X ++ Y) o := by
  cases o with
  | none => rfl
  | some q => simp [mapPre, List.append_assoc]

/-- Inversion of a segment extension producing a result. -/
theorem mapPre_eq_some (X p g val r : List Char)
    (o : Option (List Char × List Char × List Char × List Char))
    (h : mapPre X o = some (p, g, val, r)) :
    ∃ p3, o = some (p3, g, val, r) ∧ p = X ++ p3 := by
  cases o with
  | none => cases h
  | some q =>
    obtain ⟨p3, g3, v3, r3⟩ := q
    simp only [mapPre, Option.map_some', Option.some.injEq,
      Prod.mk.injEq] at h
    obtain ⟨hp, hg, hv, hr⟩ := h
    exact ⟨p3, by rw [hg, hv, hr], hp.symm⟩

/-- A failing attempt at a line start means the pattern fails there. -/
theorem matchAt_none_of_attemptAt_none (kw : List Char) (vp : Char → Bool)
    (s : List Char) (h : attemptAt kw vp true s = none) :
    matchAt kw vp s = none := by
  cases hm : matchAt kw vp s with
  | none => rfl
  | some res =>
    obtain ⟨g, val, t⟩ := res
    rw [attemptAt_of_matchAt kw vp s g val t hm] at h
    cases h

/-- The version value class holds exactly of non-quote characters. -/
theorem vpNonQuote_iff (c : Char) : vpNonQuote c = true ↔ c ≠ qt := by
  simp [vpNonQuote]

/-- Cross-field stability: if both the version scan and the sha256 scan
succeed on a string, then after replacing the sha256 value the version
scan still succeeds with the same captured version value (and the same
group).  The version match is either before, after, or quote-aligned
with the sha match, and in each arrangement the substitution of one
hex value for another cannot move or change the version capture. -/
theorem scanV_stable_under_sha_replace (s : List Char) :
    ∀ (b : Bool) (pv gv v rv ps gs xs rs d : List Char),
    scanCore kwVersion vpNonQuote b s = some (pv, gv, v, rv) →
    scanCore kwSha isHexC b s = some (ps, gs, xs, rs) →
    (∀ c ∈ d, isHexC c = true) → d ≠ [] →
    ∃ pv2 rv2,
      scanCore kwVersion vpNonQuote b (ps ++ (gs ++ (d ++ qt :: rs)))
        = some (pv2, gv, v, rv2) := by
  induction s with
  | nil =>
    intro b pv gv v rv ps gs xs rs d h1 h2 hd hdne
    rw [scanCore] at h1
    obtain ⟨_, _, hm⟩ := attemptAt_some kwVersion vpNonQuote b [] pv gv v
      rv h1
    rw [matchAt_nil] at hm
    cases hm
  | cons c t ih =>
    intro b pv gv v rv ps gs xs rs d h1 h2 hd hdne
    have hdnq : ∀ e ∈ d, vpNonQuote e = true :=
      fun e he => (vpNonQuote_iff e).mpr (ne_qt_of_isHexC e (hd e he))
    cases hatt1 : attemptAt kwVersion vpNonQuote b (c :: t) with
    | some res1 =>
      -- the version match is at this position
      rw [scanCore, hatt1] at h1
      rw [show orO (some res1)
        (withPre c (scanCore kwVersion vpNonQuote (isNL c) t))
        = some res1 from rfl] at h1
      rw [h1] at hatt1
      obtain ⟨hbt, hpv, hmv⟩ := attemptAt_some kwVersion vpNonQuote b
        (c :: t) pv gv v rv hatt1
      obtain ⟨w1, w2, hgv, hsplitv, hw1, hw2, hw2ne, hvv, hvne⟩ :=
        matchAt_sound kwVersion vpNonQuote (c :: t) gv v rv hmv
      have hvnq : ∀ e ∈ v, e ≠ qt :=
        fun e he => (vpNonQuote_iff e).mp (hvv e he)
      cases hatt2 : attemptAt kwSha isHexC b (c :: t) with
      | some res2 =>
        -- both patterns cannot match at the same position
        exfalso
        rw [scanCore, hatt2] at h2
        rw [show orO (some res2)
          (withPre c (scanCore kwSha isHexC (isNL c) t))
          = some res2 from rfl] at h2
        rw [h2] at hatt2
        obtain ⟨_, hps, hms⟩ := attemptAt_some kwSha isHexC b (c :: t)
          ps gs xs rs hatt2
        obtain ⟨w1s, w2s, hgss, hsplits, hw1s, hw2s, hw2sne, hxs, hxsne⟩ :=
          matchAt_sound kwSha isHexC (c :: t) gs xs rs hms
        have hd1 : (c :: t).dropWhile isWS
            = 'v' :: (('e' :: 'r' :: 's' :: 'i' :: 'o' :: 'n' :: []) ++
              (w2 ++ qt :: (v ++ qt :: rv))) := by
          rw [hsplitv, show kwVersion = 'v' :: ('e' :: 'r' :: 's' :: 'i'
            :: 'o' :: 'n' :: []) from by decide]
          rw [show w1 ++ 'v' :: ('e' :: 'r' :: 's' :: 'i' :: 'o' :: 'n'
            :: []) ++ w2 ++ qt :: (v ++ qt :: rv)
            = w1 ++ 'v' :: (('e' :: 'r' :: 's' :: 'i' :: 'o' :: 'n' :: [])
              ++ (w2 ++ qt :: (v ++ qt :: rv))) by simp]
          exact dropWhile_stop isWS w1 'v' _ hw1 (by decide)
        have hd2 : (c :: t).dropWhile isWS
            = 's' :: (('h' :: 'a' :: '2' :: '5' :: '6' :: []) ++
              (w2s ++ qt :: (xs ++ qt :: rs))) := by
          rw [hsplits, show kwSha = 's' :: ('h' :: 'a' :: '2' :: '5' ::
            '6' :: []) from by decide]
          rw [show w1s ++ 's' :: ('h' :: 'a' :: '2' :: '5' :: '6' :: [])
            ++ w2s ++ qt :: (xs ++ qt :: rs)
            = w1s ++ 's' :: (('h' :: 'a' :: '2' :: '5' :: '6' :: [])
              ++ (w2s ++ qt :: (xs ++ qt :: rs))) by simp]
          exact dropWhile_stop isWS w1s 's' _ hw1s (by decide)
        rw [hd1] at hd2
        injection hd2 with h5 h6
        exact absurd h5 (by decide)
      | none =>
        -- sha match strictly later: walk it through the version group
        -- and value
        have hsplitv2 : c :: t = (w1 ++ (kwVersion ++ (w2 ++ [qt])))
            ++ (v ++ qt :: rv) := by
          rw [hsplitv]
          simp [List.append_assoc]
        rw [hsplitv2] at h2
        obtain ⟨Z, hz⟩ := scanCore_through_group_value kwVersion kwSha
          isHexC w1 w2 v d hw1 hw2 (by decide) (by decide) (by decide)
          (by decide) (by decide) sha_not_at_version_suffix hvnq
          (w1 ++ (kwVersion ++ (w2 ++ [qt]))) (List.suffix_refl _)
          b rv ps gs xs rs h2
        have hgvz : ps ++ (gs ++ (d ++ qt :: rs))
            = gv ++ (v ++ qt :: Z) := by
          rw [hz, hgv]
          simp [List.append_assoc]
        have hmc : matchAt kwVersion vpNonQuote (gv ++ (v ++ qt :: Z))
            = some (gv, v, Z) := by
          have := matchAt_complete kwVersion vpNonQuote w1 w2 v Z
            'v' ('e' :: 'r' :: 's' :: 'i' :: 'o' :: 'n' :: [])
            (by decide) (by decide) hw1 hw2 hw2ne hvv hvne (by decide)
          rw [hgv]
          simpa [List.append_assoc] using this
        refine ⟨[], Z, ?_⟩
        rw [hgvz, hbt]
        exact scanCore_of_matchAt kwVersion vpNonQuote _ gv v Z hmc
    | none =>
      cases hatt2 : attemptAt kwSha isHexC b (c :: t) with
      | some res2 =>
        -- the sha match is at this position; the version match is in the
        -- remainder after its value
        rw [scanCore, hatt2] at h2
        rw [show orO (some res2)
          (withPre c (scanCore kwSha isHexC (isNL c) t))
          = some res2 from rfl] at h2
        rw [h2] at hatt2
        obtain ⟨hbt, hps, hms⟩ := attemptAt_some kwSha isHexC b (c :: t)
          ps gs xs rs hatt2
        obtain ⟨w1s, w2s, hgss, hsplits, hw1s, hw2s, hw2sne, hxs, hxsne⟩ :=
          matchAt_sound kwSha isHexC (c :: t) gs xs rs hms
        have hXgne : w1s ++ (kwSha ++ (w2s ++ [qt])) ≠ [] := by
          simp [kwSha]
        have hwalkg := scanCore_walk_group kwSha kwVersion vpNonQuote
          w1s w2s hw1s hw2s (by decide) (by decide) (by decide)
          (by decide) (by decide) version_not_at_sha_suffix
          (w1s ++ (kwSha ++ (w2s ++ [qt]))) (List.suffix_refl _) hXgne
        have hsplits2 : c :: t = (w1s ++ (kwSha ++ (w2s ++ [qt])))
            ++ (xs ++ qt :: rs) := by
          rw [hsplits]
          simp [List.append_assoc]
        rw [hsplits2, hwalkg b (xs ++ qt :: rs)] at h1
        have hqsplit : xs ++ qt :: rs = (xs ++ [qt]) ++ rs := by
          simp
        rw [hqsplit, scanCore_walk_quiet kwVersion vpNonQuote (xs ++ [qt])
          (by
            intro e he
            rcases List.mem_append.mp he with he2 | he2
            · exact isNL_eq_false_of_isHexC e (hxs e he2)
            · simp only [List.mem_singleton] at he2
              subst he2
              decide) rs] at h1
        rw [mapPre_comp] at h1
        obtain ⟨p3, hrs, hpv⟩ := mapPre_eq_some _ pv gv v rv _ h1
        have hdwalk : scanCore kwVersion vpNonQuote b
            ((w1s ++ (kwSha ++ (w2s ++ [qt]))) ++ ((d ++ [qt]) ++ rs))
            = mapPre ((w1s ++ (kwSha ++ (w2s ++ [qt]))) ++ (d ++ [qt]))
              (scanCore kwVersion vpNonQuote false rs) := by
          rw [hwalkg b ((d ++ [qt]) ++ rs),
            scanCore_walk_quiet kwVersion vpNonQuote (d ++ [qt])
            (by
              intro e he
              rcases List.mem_append.mp he with he2 | he2
              · exact isNL_eq_false_of_isHexC e (hd e he2)
              · simp only [List.mem_singleton] at he2
                subst he2
                decide) rs, mapPre_comp]
        refine ⟨(w1s ++ (kwSha ++ (w2s ++ [qt]))) ++ ((d ++ [qt]) ++ p3),
          rv, ?_⟩
        have hform : ps ++ (gs ++ (d ++ qt :: rs))
            = (w1s ++ (kwSha ++ (w2s ++ [qt]))) ++ ((d ++ [qt]) ++ rs) := by
          rw [hps, List.nil_append, hgss]
          simp [List.append_assoc]
        rw [hform, hdwalk, hrs]
        simp [mapPre, List.append_assoc]
      | none =>
        -- neither pattern matches here: both scans step together
        rw [scanCore, hatt1] at h1
        rw [show orO (none : Option (List Char × List Char × List Char ×
          List Char)) (withPre c (scanCore kwVersion vpNonQuote (isNL c) t))
          = withPre c (scanCore kwVersion vpNonQuote (isNL c) t)
          from rfl] at h1
        rw [scanCore, hatt2] at h2
        rw [show orO (none : Option (List Char × List Char × List Char ×
          List Char)) (withPre c (scanCore kwSha isHexC (isNL c) t))
          = withPre c (scanCore kwSha isHexC (isNL c) t) from rfl] at h2
        cases hs1 : scanCore kwVersion vpNonQuote (isNL c) t with
        | none => rw [hs1] at h1; cases h1
        | some res1 =>
          obtain ⟨pv1, gv1, v1, rv1⟩ := res1
          rw [hs1] at h1
          simp only [withPre, Option.map_some', Option.some.injEq,
            Prod.mk.injEq] at h1
          obtain ⟨hpv, hgv1, hv1, hrv1⟩ := h1
          cases hs2 : scanCore kwSha isHexC (isNL c) t with
          | none => rw [hs2] at h2; cases h2
          | some res2 =>
            obtain ⟨ps1, gs1, xs1, rs1⟩ := res2
            rw [hs2] at h2
            simp only [withPre, Option.map_some', Option.some.injEq,
              Prod.mk.injEq] at h2
            obtain ⟨hps, hgs1, hxs1, hrs1⟩ := h2
            obtain ⟨pv2, rv2, hnew⟩ := ih (isNL c) pv1 gv1 v1 rv1 ps1 gs1
              xs1 rs1 d hs1 hs2 hd hdne
            obtain ⟨w1s, w2s, hgss, hsplits, hw1s, hw2s, hw2sne, hxs2,
              hxsne⟩ := scanCore_sound kwSha isHexC t (isNL c) ps1 gs1
              xs1 rs1 hs2
            refine ⟨c :: pv2, rv2, ?_⟩
            rw [← hps, ← hgs1, ← hrs1, ← hgv1, ← hv1, List.cons_append]
            apply scanCore_step_some kwVersion vpNonQuote b c _ pv2 gv1
              v1 rv2 ?_ ?_
            · -- the attempt still fails after the substitution
              cases b with
              | false => rfl
              | true =>
                apply attemptAt_none
                have hgs1ne : gs1 ≠ [] := by
                  rw [hgss]; simp
                have hglast : ((c :: ps1) ++ gs1).getLast? = some qt := by
                  rw [getLastQ_append (c :: ps1) gs1 hgs1ne, hgss]
                  rw [getLastQ_append (w1s ++ kwSha ++ w2s) [qt] (by simp)]
                  rfl
                have hgw : ∃ e ∈ (c :: ps1) ++ gs1, isWS e = false := by
                  refine ⟨'s', ?_, by decide⟩
                  rw [hgss, show kwSha = 's' :: ('h' :: 'a' :: '2' :: '5'
                    :: '6' :: []) from by decide]
                  simp
                have hold : matchAt kwVersion vpNonQuote
                    (((c :: ps1) ++ gs1) ++ (xs1 ++ qt :: rs1)) = none := by
                  have hshape : (c :: t)
                      = ((c :: ps1) ++ gs1) ++ (xs1 ++ qt :: rs1) := by
                    rw [hsplits]
                    simp [List.append_assoc]
                  rw [← hshape]
                  exact matchAt_none_of_attemptAt_none kwVersion vpNonQuote
                    (c :: t) hatt1
                have hxs1nq : ∀ e ∈ xs1, vpNonQuote e = true :=
                  fun e he => (vpNonQuote_iff e).mpr
                    (ne_qt_of_isHexC e (hxs2 e he))
                have hnone := matchAt_none_invariant kwVersion vpNonQuote
                  ((c :: ps1) ++ gs1) xs1 d rs1 rs1 (by decide) (by decide)
                  hglast hgw hxs1nq hxsne hold
                rw [show c :: (ps1 ++ (gs1 ++ (d ++ qt :: rs1)))
                  = ((c :: ps1) ++ gs1) ++ (d ++ qt :: rs1) by
                    simp [List.append_assoc]]
                exact hnone
            · exact hnew

/-- Idempotence of the in-memory cask recomputation for well-formed
version and digest values: the content produced by one successful
substitution pass is a fixed point of a second pass. -/
theorem recomputeCask_idempotent (orig v d c1 : List Char)
    (hvne : v ≠ []) (hvq : ∀ c ∈ v, c ≠ qt)
    (hdne : d ≠ []) (hdh : ∀ c ∈ d, isHexC c = true)
    (h : recomputeCask orig v d = .ok c1) :
    recomputeCask c1 v d = .ok c1 := by
  have hvv : ∀ c ∈ v, vpNonQuote c = true :=
    fun c hc => (vpNonQuote_iff c).mpr (hvq c hc)
  rw [recomputeCask] at h
  cases hA : replaceField kwVersion vpNonQuote orig v with
  | none => simp [hA] at h
  | some cA =>
  simp only [hA] at h
  cases hB : replaceField kwSha isHexC cA d with
  | none => simp [hB] at h
  | some cB =>
  simp only [hB] at h
  cases hU : scanField kwUrl vpNonQuote cB with
  | none => simp [hU] at h
  | some resU =>
  obtain ⟨pu, gu, urlVal, ru⟩ := resU
  simp only [hU] at h
  by_cases hq : universalQualifier <:+: urlVal
  case neg => simp [hq] at h
  case pos =>
  rw [if_pos hq] at h
  injection h with hc1
  subst hc1
  -- decompose the version substitution
  rw [replaceField] at hA
  cases h1 : scanField kwVersion vpNonQuote orig with
  | none => rw [h1] at hA; cases hA
  | some res1 =>
  obtain ⟨p1, g1, x1, r1⟩ := res1
  rw [h1] at hA
  injection hA with hcA
  -- decompose the sha substitution
  rw [replaceField] at hB
  cases h2 : scanField kwSha isHexC cA with
  | none => rw [h2] at hB; cases hB
  | some res2 =>
  obtain ⟨ps, gs, xs, rs⟩ := res2
  rw [h2] at hB
  injection hB with hcB
  -- the version scan of the substituted content captures the new version
  have hassocA : p1 ++ (g1 ++ (v ++ qt :: r1)) = cA := by
    rw [← hcA]
    simp [List.append_assoc]
  have hscanVA : scanField kwVersion vpNonQuote cA = some (p1, g1, v, r1) := by
    have := scanCore_replace kwVersion vpNonQuote 'v'
      ('e' :: 'r' :: 's' :: 'i' :: 'o' :: 'n' :: []) (by decide) (by decide)
      (by decide) (by decide) orig true p1 g1 x1 r1 v h1 hvv hvne
    rw [hassocA] at this
    exact this
  have hassocB : ps ++ (gs ++ (d ++ qt :: rs)) = cB := by
    rw [← hcB]
    simp [List.append_assoc]
  -- the version scan of the fully substituted content still captures
  -- the version
  obtain ⟨pv2, rv2, hscanVB⟩ := scanV_stable_under_sha_replace cA true
    p1 g1 v r1 ps gs xs rs d hscanVA h2 hdh hdne
  rw [hassocB] at hscanVB
  have hscanVB2 : scanField kwVersion vpNonQuote cB
      = some (pv2, g1, v, rv2) := hscanVB
  -- hence the version substitution of the final content is the identity
  have hVB : replaceField kwVersion vpNonQuote cB v = some cB := by
    rw [replaceField, hscanVB2]
    obtain ⟨w1, w2, hgsh, hsplit, _, _, _, _, _⟩ :=
      scanCore_sound kwVersion vpNonQuote cB true pv2 g1 v rv2 hscanVB
    rw [hsplit]
    simp [List.append_assoc]
  -- and so is the sha substitution
  have hSB : replaceField kwSha isHexC cB d = some cB := by
    have hrep := scanCore_replace kwSha isHexC 's'
      ('h' :: 'a' :: '2' :: '5' :: '6' :: []) (by decide) (by decide)
      (by decide) (by decide) cA true ps gs xs rs d h2 hdh hdne
    rw [hassocB] at hrep
    have hrep2 : scanField kwSha isHexC cB = some (ps, gs, d, rs) := hrep
    rw [replaceField, hrep2, ← hcB]
  simp [recomputeCask, hVB, hSB, hU, hq]

/-! ### Claim C1: idempotence of the manifest update -/

/-- A cask fixture used for concrete evaluations. -/
def caskFixture : List Char :=
  String.toList "version \"1.0\"\nsha256 \"aa\"\nurl \"x_universal.dmg\"\n"

/-- A version string containing a double quote. -/
def quoteVersionInput : List Char := String.toList "1\"0"

/-- A two-digit hex digest value. -/
def digestBB : List Char := String.toList "bb"

/-- Claim C1, counterexample to the claim as stated: with a version
string that contains a double quote, the first `updateCaskFile` run
writes a manifest whose version field closes early, and a second run
with the same version and digest writes again, producing a file that is
not byte-identical to the state after the first application. -/
theorem claim1_counterexample :
    fileAfter
      (fileAfter caskFixture
        (updateCaskFile caskFixture quoteVersionInput digestBB false false))
      (updateCaskFile
        (fileAfter caskFixture
          (updateCaskFile caskFixture quoteVersionInput digestBB false false))
        quoteVersionInput digestBB false false)
    ≠ fileAfter caskFixture
        (updateCaskFile caskFixture quoteVersionInput digestBB false false) := by
  decide

/-- Claim C1 (amended): if the recomputed content equals the original
content byte for byte, `updateCaskFile` performs no write; and provided
the version is nonempty and quote-free and the digest is a nonempty
hexadecimal string, a second application of the update with the same
version and digest performs no write, leaving the file byte-identical
to its state after the first application. -/
theorem claim1_manifest_update_idempotent :
    (∀ orig v d dr, recomputeCask orig v d = .ok orig →
      updateCaskFile orig v d false dr = .noWrite)
    ∧ (∀ orig v d c1, v ≠ [] → (∀ c ∈ v, c ≠ qt) → d ≠ [] →
      (∀ c ∈ d, isHexC c = true) →
      recomputeCask orig v d = .ok c1 →
      updateCaskFile c1 v d false false = .noWrite) := by
  constructor
  · intro orig v d dr h
    rw [updateCaskFile, if_neg (by simp)]
    simp [h]
  · intro orig v d c1 hvne hvq hdne hdh h
    have h2 := recomputeCask_idempotent orig v d c1 hvne hvq hdne hdh h
    rw [updateCaskFile, if_neg (by simp)]
    simp [h2]

/-- A well-formed version string for the witness run. -/
def versionTwo : List Char := String.toList "2.0"

/-- A cask fixture already at the target version and digest. -/
def caskFixtureCurrent : List Char :=
  String.toList "version \"2.0\"\nsha256 \"bb\"\nurl \"x_universal.dmg\"\n"

/-- Witness for claim C1: a concrete manifest, version and digest
satisfying the hypotheses of both conjuncts. -/
theorem claim1_witness :
    updateCaskFile
      (fileAfter caskFixture
        (updateCaskFile caskFixture versionTwo digestBB false false))
      versionTwo digestBB false false = .noWrite
    ∧ updateCaskFile caskFixtureCurrent versionTwo digestBB false false
      = .noWrite := by
  constructor
  · exact claim1_manifest_update_idempotent.2 caskFixture versionTwo
      digestBB _ (by decide) (by decide) (by decide) (by decide) (by rfl)
  · exact claim1_manifest_update_idempotent.1 caskFixtureCurrent versionTwo
      digestBB false (by rfl)

/-! ### Claim C6: url qualifier validation -/

/-- A manifest with a url field lacking the qualifier and no version
field at all. -/
def caskNoVersion : List Char := String.toList "url \"x.dmg\"\n"

/-- A manifest whose url lacks the `_universal.dmg` qualifier but whose
version and sha256 fields are present. -/
def caskBadUrl : List Char :=
  String.toList "version \"1.0\"\nsha256 \"aa\"\nurl \"x.dmg\"\n"

/-- Claim C6, counterexample to the claim as stated: a manifest whose
url field value lacks the qualifier but which has no version field
fails with the version format error, not the url mismatch error (the
field substitutions run first). -/
theorem claim6_counterexample :
    (∃ pu gu ru, scanField kwUrl vpNonQuote caskNoVersion
      = some (pu, gu, String.toList "x.dmg", ru))
    ∧ ¬ universalQualifier <:+: String.toList "x.dmg"
    ∧ updateCaskFile caskNoVersion versionTwo digestBB false false
      = .err "Failed to find version in cask file"
    ∧ updateCaskFile caskNoVersion versionTwo digestBB false false
      ≠ .err "Cask url does not point to a _universal.dmg asset" := by
  refine ⟨⟨[], String.toList "url \"", [nlC], by rfl⟩, by decide, by rfl,
    by decide⟩

/-- Claim C6 (amended): when the version and sha256 substitutions both
succeed and the url field of the substituted content carries a value
lacking the `_universal.dmg` qualifier, `updateCaskFile` fails with the
mismatch error, and the error is raised before any write, leaving the
file unmodified. -/
theorem claim6_url_mismatch (orig v d cA cB pu gu urlVal ru : List Char)
    (h1 : replaceField kwVersion vpNonQuote orig v = some cA)
    (h2 : replaceField kwSha isHexC cA d = some cB)
    (h3 : scanField kwUrl vpNonQuote cB = some (pu, gu, urlVal, ru))
    (h4 : ¬ universalQualifier <:+: urlVal) :
    updateCaskFile orig v d false false
      = .err "Cask url does not point to a _universal.dmg asset"
    ∧ fileAfter orig (updateCaskFile orig v d false false) = orig := by
  have hrec : recomputeCask orig v d
      = .error "Cask url does not point to a _universal.dmg asset" := by
    simp [recomputeCask, h1, h2, h3, h4]
  constructor
  · rw [updateCaskFile, if_neg (by simp)]
    simp [hrec]
  · rw [updateCaskFile, if_neg (by simp)]
    simp [hrec, fileAfter]

/-- Witness for claim C6 on a concrete well-formed manifest with a bad
url. -/
theorem claim6_witness :
    updateCaskFile caskBadUrl versionTwo digestBB false false
      = .err "Cask url does not point to a _universal.dmg asset"
    ∧ fileAfter caskBadUrl (updateCaskFile caskBadUrl versionTwo digestBB
        false false) = caskBadUrl := by
  exact claim6_url_mismatch caskBadUrl versionTwo digestBB
    (String.toList "version \"2.0\"\nsha256 \"aa\"\nurl \"x.dmg\"\n")
    (String.toList "version \"2.0\"\nsha256 \"bb\"\nurl \"x.dmg\"\n")
    (String.toList "version \"2.0\"\nsha256 \"bb\"\n")
    (String.toList "url \"") (String.toList "x.dmg") [nlC]
    (by rfl) (by rfl) (by rfl) (by decide)

/-! ### Claim C4: help short-circuit -/

/-- Claim C4, counterexample to the claim as stated: an unknown token
before the help flag throws before the help flag is ever examined, so
an argument list containing `-h` does not always short-circuit to
usage-and-exit-0. -/
theorem claim4_counterexample :
    parseArgs ["--bogus", "-h"] = .err "Unknown argument: --bogus" ∧
    parseArgs ["--bogus", "-h"] ≠ .help := by
  constructor
  · rfl
  · decide

/-- Claim C4 (amended): a help flag short-circuits to printing usage and
exiting 0 (the `help` result) without evaluating any later token,
provided every earlier token is a recognized flag with its value
present; the tokens after the help flag are arbitrary. -/
theorem claim4_help_short_circuit (fl : List CliFlag) (h : String)
    (post : List String) (hok : ∀ f ∈ fl, flagOk f = true)
    (hh : h = "-h" ∨ h = "--help") :
    parseArgs (renderArgs fl ++ h :: post) = .help := by
  rw [parseArgs, parseLoop_renderArgs fl (h :: post) initOptions hok]
  rcases hh with rfl | rfl <;> cases post <;> simp [parseLoop]

/-- Witness for claim C4: clean flags, then `-h`, then junk. -/
theorem claim4_witness :
    parseArgs (renderArgs [.dryRun, .notesFile "n.md"] ++
      "-h" :: ["--bogus"]) = .help :=
  claim4_help_short_circuit [.dryRun, .notesFile "n.md"] "-h" ["--bogus"]
    (by decide) (Or.inl rfl)

/-! ### Claim C7: notes flags are mutually exclusive -/

/-- A value-taking flag with a missing or empty value makes the loop
report a missing value. -/
theorem parseLoop_missingValue (t : String) (rest : List String)
    (o : PublishOptions)
    (ht : t = "--notes-file" ∨ t = "--tag" ∨ t = "--repo" ∨
      t = "--cask" ∨ t = "--asset-path")
    (hrest : rest = [] ∨ ∃ rest2, rest = "" :: rest2) :
    parseLoop (t :: rest) o = .err ("Missing value for " ++ t) := by
  rcases ht with rfl | rfl | rfl | rfl | rfl <;>
    (rcases hrest with rfl | ⟨rest2, rfl⟩ <;> simp [parseLoop])

/-- A help token makes the loop return the help result at once. -/
theorem parseLoop_helpStep (t : String) (rest : List String)
    (o : PublishOptions) (ht : t = "-h" ∨ t = "--help") :
    parseLoop (t :: rest) o = .help := by
  rcases ht with rfl | rfl <;> cases rest <;> simp [parseLoop]

/-- An unrecognized token makes the loop report an unknown argument. -/
theorem parseLoop_unknownStep (t : String) (rest : List String)
    (o : PublishOptions)
    (h1 : t ≠ "--skip-build") (h2 : t ≠ "--skip-gh")
    (h3 : t ≠ "--skip-cask") (h4 : t ≠ "--dry-run")
    (h5 : t ≠ "--draft") (h6 : t ≠ "--generate-notes")
    (h7 : t ≠ "--notes-file") (h8 : t ≠ "--tag")
    (h9 : t ≠ "--repo") (h10 : t ≠ "--cask")
    (h11 : t ≠ "--asset-path") (h12 : t ≠ "-h")
    (h13 : t ≠ "--help") :
    parseLoop (t :: rest) o = .err ("Unknown argument: " ++ t) := by
  cases rest <;>
    simp [parseLoop, h1, h2, h3, h4, h5, h6, h7, h8, h9, h10, h11, h12, h13]

/-- Fuel-indexed invariant: a run of the parse loop that returns a
configuration never returns one with both notes options set. -/
theorem parseLoop_ok_no_both : ∀ (n : Nat) (args : List String),
    args.length ≤ n → ∀ (o0 o : PublishOptions), parseLoop args o0 = .ok o →
    (o.notesFile.isSome && o.generateNotes) = false := by
  intro n
  induction n with
  | zero =>
    intro args hlen o0 o h
    have hnil : args = [] := List.eq_nil_of_length_eq_zero
      (Nat.le_zero.mp hlen)
    subst hnil
    rw [parseLoop] at h
    split at h
    case isTrue => cases h
    case isFalse hcond =>
      injection h with ho
      subst ho
      simpa using hcond
  | succ n ih =>
    intro args hlen o0 o h
    cases args with
    | nil => exact ih [] (by simp) o0 o h
    | cons t rest =>
      have hlenR : rest.length ≤ n := by simp at hlen; omega
      by_cases h1 : t = "--skip-build"
      · subst h1
        have hs : parseLoop (renderFlag CliFlag.skipBuild ++ rest) o0 =
            ParseResult.ok o := h
        rw [parseLoop_renderFlag CliFlag.skipBuild rest o0 rfl] at hs
        exact ih _ hlenR _ _ hs
      by_cases h2 : t = "--skip-gh"
      · subst h2
        have hs : parseLoop (renderFlag CliFlag.skipGh ++ rest) o0 =
            ParseResult.ok o := h
        rw [parseLoop_renderFlag CliFlag.skipGh rest o0 rfl] at hs
        exact ih _ hlenR _ _ hs
      by_cases h3 : t = "--skip-cask"
      · subst h3
        have hs : parseLoop (renderFlag CliFlag.skipCask ++ rest) o0 =
            ParseResult.ok o := h
        rw [parseLoop_renderFlag CliFlag.skipCask rest o0 rfl] at hs
        exact ih _ hlenR _ _ hs
      by_cases h4 : t = "--dry-run"
      · subst h4
        have hs : parseLoop (renderFlag CliFlag.dryRun ++ rest) o0 =
            ParseResult.ok o := h
        rw [parseLoop_renderFlag CliFlag.dryRun rest o0 rfl] at hs
        exact ih _ hlenR _ _ hs
      by_cases h5 : t = "--draft"
      · subst h5
        have hs : parseLoop (renderFlag CliFlag.draft ++ rest) o0 =
            ParseResult.ok o := h
        rw [parseLoop_renderFlag CliFlag.draft rest o0 rfl] at hs
        exact ih _ hlenR _ _ hs
      by_cases h6 : t = "--generate-notes"
      · subst h6
        have hs : parseLoop (renderFlag CliFlag.generateNotes ++ rest) o0 =
            ParseResult.ok o := h
        rw [parseLoop_renderFlag CliFlag.generateNotes rest o0 rfl] at hs
        exact ih _ hlenR _ _ hs
      by_cases h7 : t = "--notes-file"
      · subst h7
        cases rest with
        | nil =>
          rw [parseLoop_missingValue _ _ _ (by simp) (Or.inl rfl)] at h
          cases h
        | cons v rest2 =>
          by_cases hv : v = ""
          · subst hv
            rw [parseLoop_missingValue _ _ _ (by simp)
              (Or.inr ⟨rest2, rfl⟩)] at h
            cases h
          · have hs : parseLoop (renderFlag (CliFlag.notesFile v) ++ rest2)
                o0 = ParseResult.ok o := h
            rw [parseLoop_renderFlag _ _ _ (by simp [flagOk, hv])] at hs
            exact ih _ (by simp at hlen; omega) _ _ hs
      by_cases h8 : t = "--tag"
      · subst h8
        cases rest with
        | nil =>
          rw [parseLoop_missingValue _ _ _ (by simp) (Or.inl rfl)] at h
          cases h
        | cons v rest2 =>
          by_cases hv : v = ""
          · subst hv
            rw [parseLoop_missingValue _ _ _ (by simp)
              (Or.inr ⟨rest2, rfl⟩)] at h
            cases h
          · have hs : parseLoop (renderFlag (CliFlag.tagF v) ++ rest2)
                o0 = ParseResult.ok o := h
            rw [parseLoop_renderFlag _ _ _ (by simp [flagOk, hv])] at hs
            exact ih _ (by simp at hlen; omega) _ _ hs
      by_cases h9 : t = "--repo"
      · subst h9
        cases rest with
        | nil =>
          rw [parseLoop_missingValue _ _ _ (by simp) (Or.inl rfl)] at h
          cases h
        | cons v rest2 =>
          by_cases hv : v = ""
          · subst hv
            rw [parseLoop_missingValue _ _ _ (by simp)
              (Or.inr ⟨rest2, rfl⟩)] at h
            cases h
          · have hs : parseLoop (renderFlag (CliFlag.repoF v) ++ rest2)
                o0 = ParseResult.ok o := h
            rw [parseLoop_renderFlag _ _ _ (by simp [flagOk, hv])] at hs
            exact ih _ (by simp at hlen; omega) _ _ hs
      by_cases h10 : t = "--cask"
      · subst h10
        cases rest with
        | nil =>
          rw [parseLoop_missingValue _ _ _ (by simp) (Or.inl rfl)] at h
          cases h
        | cons v rest2 =>
          by_cases hv : v = ""
          · subst hv
            rw [parseLoop_missingValue _ _ _ (by simp)
              (Or.inr ⟨rest2, rfl⟩)] at h
            cases h
          · have hs : parseLoop (renderFlag (CliFlag.caskF v) ++ rest2)
                o0 = ParseResult.ok o := h
            rw [parseLoop_renderFlag _ _ _ (by simp [flagOk, hv])] at hs
            exact ih _ (by simp at hlen; omega) _ _ hs
      by_cases h11 : t = "--asset-path"
      · subst h11
        cases rest with
        | nil =>
          rw [parseLoop_missingValue _ _ _ (by simp) (Or.inl rfl)] at h
          cases h
        | cons v rest2 =>
          by_cases hv : v = ""
          · subst hv
            rw [parseLoop_missingValue _ _ _ (by simp)
              (Or.inr ⟨rest2, rfl⟩)] at h
            cases h
          · have hs : parseLoop (renderFlag (CliFlag.assetPathF v) ++ rest2)
                o0 = ParseResult.ok o := h
            rw [parseLoop_renderFlag _ _ _ (by simp [flagOk, hv])] at hs
            exact ih _ (by simp at hlen; omega) _ _ hs
      by_cases h12 : t = "-h" ∨ t = "--help"
      · rw [parseLoop_helpStep _ _ _ h12] at h
        cases h
      · push_neg at h12
        rw [parseLoop_unknownStep t rest o0 h1 h2 h3 h4 h5 h6 h7 h8 h9 h10
          h11 h12.1 h12.2] at h
        cases h

/-- Claim C7 counterexample: the claim says that supplying both
`--notes-file` (with a value) and `--generate-notes` always fails with a
configuration error, but a help flag anywhere in the list short-circuits
to usage/exit 0 before the mutual-exclusion check runs. -/
theorem claim7_counterexample :
    parseArgs ["--notes-file", "x", "--generate-notes", "-h"] =
      ParseResult.help := by
  decide

/-- Claim C7 (amended): the resolver never returns a configuration with
both notes options set; a well-formed unit list containing both a
`--notes-file` unit and a `--generate-notes` unit makes `parseArgs` fail
with the mutual-exclusion error; and a well-formed unit list without
that pair resolves to the folded configuration. -/
theorem claim7_notes_mutual_exclusion (fl : List CliFlag)
    (hok : ∀ f ∈ fl, flagOk f = true) :
    (∀ (args : List String) (o : PublishOptions),
        parseArgs args = ParseResult.ok o →
        (o.notesFile.isSome && o.generateNotes) = false) ∧
    ((fl.any isNotesFileFlag && fl.any isGenerateNotesFlag) = true →
      parseArgs (renderArgs fl) =
        ParseResult.err "Use either --notes-file or --generate-notes, not both.") ∧
    ((fl.any isNotesFileFlag && fl.any isGenerateNotesFlag) = false →
      parseArgs (renderArgs fl) =
        ParseResult.ok (fl.foldl applyFlag initOptions)) := by
  refine ⟨?_, ?_, ?_⟩
  · intro args o h
    exact parseLoop_ok_no_both args.length args le_rfl initOptions o h
  · intro hboth
    have hc : ((fl.foldl applyFlag initOptions).notesFile.isSome &&
        (fl.foldl applyFlag initOptions).generateNotes) = true := by
      rw [foldl_applyFlag_notesFile, foldl_applyFlag_generateNotes]
      simpa [initOptions] using hboth
    rw [parseArgs, show renderArgs fl = renderArgs fl ++ [] from
      (List.append_nil _).symm, parseLoop_renderArgs fl [] initOptions hok,
      parseLoop, if_pos hc]
  · intro hno
    have hc : ((fl.foldl applyFlag initOptions).notesFile.isSome &&
        (fl.foldl applyFlag initOptions).generateNotes) = false := by
      rw [foldl_applyFlag_notesFile, foldl_applyFlag_generateNotes]
      simpa [initOptions] using hno
    rw [parseArgs, show renderArgs fl = renderArgs fl ++ [] from
      (List.append_nil _).symm, parseLoop_renderArgs fl [] initOptions hok,
      parseLoop, if_neg (by simp [hc])]

/-- Witness for claim C7: a unit list with both notes flags is rejected
with the mutual-exclusion message. -/
theorem claim7_witness :
    (∀ f ∈ ([CliFlag.notesFile "n.md", CliFlag.generateNotes] :
        List CliFlag), flagOk f = true) ∧
    parseArgs (renderArgs [CliFlag.notesFile "n.md", CliFlag.generateNotes]) =
      ParseResult.err "Use either --notes-file or --generate-notes, not both." :=
  ⟨by decide,
    (claim7_notes_mutual_exclusion
      [CliFlag.notesFile "n.md", CliFlag.generateNotes]
      (by decide)).2.1 (by decide)⟩

/-- A process environment that reports exit status 2 for every command,
used to witness the non-zero-exit claims. -/
def envExit2 : CmdEnv := fun _ => ⟨false, "", some 2, "", ""⟩

/-- Claim C5: outside dry-run, a process that completes with a non-zero
exit status makes `runCommand` throw an error naming the exit code and
the formatted command when `allowFailure` is false, and return the
non-zero result to the caller when `allowFailure` is true. -/
theorem claim5_nonzero_exit (env : CmdEnv) (cmd : String)
    (args : List String) (n : Int) (hn : n ≠ 0)
    (herr : (env (cmd :: args)).error = false)
    (hst : (env (cmd :: args)).status = some n) :
    runCommand env cmd args false false =
      ([Effect.call cmd args true],
        RunOutcome.threw ("Command failed (exit=" ++ toString n ++ "): " ++
          formatCommand cmd args)) ∧
    runCommand env cmd args false true =
      ([Effect.call cmd args true], RunOutcome.ok (env (cmd :: args))) := by
  constructor <;> simp [runCommand, herr, hst, hn, commandFailedMsg]

/-- Witness for claim C5 at a concrete environment exiting 2. -/
theorem claim5_witness :
    runCommand envExit2 "gh" ["release", "view"] false false =
      ([Effect.call "gh" ["release", "view"] true],
        RunOutcome.threw ("Command failed (exit=" ++ toString (2 : Int) ++
          "): " ++ formatCommand "gh" ["release", "view"])) ∧
    runCommand envExit2 "gh" ["release", "view"] false true =
      ([Effect.call "gh" ["release", "view"] true],
        RunOutcome.ok (envExit2 ("gh" :: ["release", "view"]))) :=
  claim5_nonzero_exit envExit2 "gh" ["release", "view"] 2 (by decide)
    (by rfl) (by rfl)

/-! ### Claim C8: digest determinism and hex encoding -/

/-- Every hex digit of a value below 16 is drawn from the lowercase
alphabet. -/
theorem hexDigit_mem_of_lt : ∀ n, n < 16 → hexDigit n ∈ hexAlphabet := by
  decide

/-- Every character of a hex encoding is drawn from the lowercase
alphabet. -/
theorem hexEncode_mem (bs : List Nat) (c : Char) (hc : c ∈ hexEncode bs) :
    c ∈ hexAlphabet := by
  induction bs with
  | nil => simp [hexEncode] at hc
  | cons b bs ih =>
    rcases List.mem_cons.mp hc with rfl | hc2
    · exact hexDigit_mem_of_lt _ (Nat.mod_lt _ (by omega))
    rcases List.mem_cons.mp hc2 with rfl | hc3
    · exact hexDigit_mem_of_lt _ (Nat.mod_lt _ (by omega))
    · exact ih hc3

/-- The embedding really is SHA-256: the digest of the bytes of "abc" is
the standard test vector. -/
theorem sha256hex_abc :
    sha256hex [97, 98, 99] = String.toList
      "ba7816bf8f01cfea414140de5dae2223b00361a396177a9cb410ff61f20015ad" := by
  rfl

/-- Claim C8: the digest computation is deterministic (identical byte
content yields the identical hex string), and the result is the
lowercase hexadecimal encoding of the content's SHA-256 digest. -/
theorem claim8_digest_deterministic (b1 b2 : List Nat) (h : b1 = b2) :
    sha256hex b1 = sha256hex b2 ∧
    sha256hex b1 = hexEncode (sha256digest b1) ∧
    ∀ c ∈ sha256hex b1, c ∈ hexAlphabet := by
  refine ⟨by rw [h], rfl, ?_⟩
  intro c hc
  exact hexEncode_mem _ c hc

/-- Witness for claim C8 on the byte content of "abc". -/
theorem claim8_witness :
    sha256hex [97, 98, 99] = sha256hex [97, 98, 99] ∧
    sha256hex [97, 98, 99] = hexEncode (sha256digest [97, 98, 99]) ∧
    ∀ c ∈ sha256hex [97, 98, 99], c ∈ hexAlphabet :=
  claim8_digest_deterministic [97, 98, 99] [97, 98, 99] rfl

/-! ### Release publisher (`ghReleaseExists` lines 244-271,
`uploadToGitHubRelease` lines 273-302)

`path.resolve` is carried as an abstract `resolve` function on paths. -/

/-- Outcome of a command as seen by a caller that propagates throws. -/
def outcomeExcept : RunOutcome → Except String Unit
  | .ok _ => .ok ()
  | .threw m => .error m

/-- Interpretation of the view command result (lines 255-270): false
under dry-run, else whether the exit status was 0; a throw propagates. -/
def ghCheck (dryRun : Bool) :
    List Effect × RunOutcome → List Effect × Except String Bool
  | (eff, .threw m) => (eff, .error m)
  | (eff, .ok r) =>
    if dryRun then (eff, .ok false)
    else if r.status = some 0 then (eff, .ok true)
    else (eff, .ok false)

/-- `ghReleaseExists(tag, repo, options)` (lines 244-271): issue the
view command with `allowFailure: true`, return false under dry-run,
otherwise report whether the exit status was 0. -/
def ghReleaseExists (env : CmdEnv) (tag repo : String) (dryRun : Bool) :
    List Effect × Except String Bool :=
  ghCheck dryRun
    (runCommand env "gh" ["release", "view", tag, "--repo", repo] dryRun true)

/-- The argument list of the `release create` command (lines 282-293). -/
def createArgsFor (resolve : String → String) (tag stagedPath repo : String)
    (draft : Bool) (notesFile : Option String) (generateNotes : Bool) :
    List String :=
  ["release", "create", tag, stagedPath, "--repo", repo, "--title", tag] ++
    (if draft then ["--draft"] else []) ++
    (match notesFile with
     | some nf => ["--notes-file", resolve nf]
     | none =>
       if generateNotes then ["--generate-notes"]
       else ["--notes", "Release " ++ tag])

/-- The argument list of the `release upload` command (lines 297-301). -/
def uploadArgsFor (tag stagedPath repo : String) : List String :=
  ["release", "upload", tag, stagedPath, "--repo", repo, "--clobber"]

/-- The branch on the existence check (lines 280-301): upload with
`--clobber` when the release is present, otherwise create it. -/
def uploadStep (env : CmdEnv) (resolve : String → String)
    (tag repo stagedPath : String) (o : PublishOptions) :
    List Effect × Except String Bool → List Effect × Except String Unit
  | (eff, .error m) => (eff, .error m)
  | (eff, .ok present) =>
    if present then
      let p := runCommand env "gh" (uploadArgsFor tag stagedPath repo)
        o.dryRun false
      (eff ++ p.1, outcomeExcept p.2)
    else
      let p := runCommand env "gh"
        (createArgsFor resolve tag stagedPath repo o.draft o.notesFile
          o.generateNotes) o.dryRun false
      (eff ++ p.1, outcomeExcept p.2)

/-- `uploadToGitHubRelease(tag, repo, stagedPath, options)`
(lines 273-302). -/
def uploadToGitHubRelease (env : CmdEnv) (resolve : String → String)
    (tag repo stagedPath : String) (o : PublishOptions) :
    List Effect × Except String Unit :=
  if o.skipGh then ([], .ok ())
  else
    uploadStep env resolve tag repo stagedPath o
      (ghReleaseExists env tag repo o.dryRun)

/-- Whether an effect is a `gh release upload` invocation. -/
def isUploadCall : Effect → Bool
  | .call "gh" ("release" :: "upload" :: _) _ => true
  | _ => false

/-- Whether an effect is a `gh release create` invocation. -/
def isCreateCall : Effect → Bool
  | .call "gh" ("release" :: "create" :: _) _ => true
  | _ => false

/-! ### Claim C2: release state transition -/

/-- The view command result outside dry-run, when spawning succeeds. -/
theorem runCommand_view (env : CmdEnv) (tag repo : String)
    (hverr : (env ("gh" :: ["release", "view", tag, "--repo", repo])).error
      = false) :
    runCommand env "gh" ["release", "view", tag, "--repo", repo] false true =
      ([Effect.call "gh" ["release", "view", tag, "--repo", repo] true],
        RunOutcome.ok (env ("gh" :: ["release", "view", tag, "--repo",
          repo]))) := by
  cases hst : (env ("gh" :: ["release", "view", tag, "--repo", repo])).status
    with
  | none => simp [runCommand, hverr, hst]
  | some n => simp [runCommand, hverr, hst]

/-- Outside dry-run, `runCommand` records exactly the one spawned call,
whatever the outcome. -/
theorem runCommand_fst (env : CmdEnv) (cmd : String) (args : List String)
    (allowFailure : Bool) :
    (runCommand env cmd args false allowFailure).1 =
      [Effect.call cmd args true] := by
  cases herr : (env (cmd :: args)).error with
  | true => simp [runCommand, herr, apply_ite (Prod.fst)]
  | false =>
    cases hst : (env (cmd :: args)).status <;>
      simp [runCommand, herr, hst, apply_ite (Prod.fst)]

/-- Claim C2: outside dry-run with skip-gh unset and a view command that
spawns, a view exit status of 0 makes the publisher issue exactly one
upload command (whose argument list carries `--clobber`) and no create
command, while a non-zero view exit makes it issue exactly one create
command and no upload command, with the publisher's outcome that of the
create command alone (the non-zero view exit is not raised). -/
theorem claim2_release_state_transition (env : CmdEnv)
    (resolve : String → String) (tag repo staged : String)
    (o : PublishOptions) (hdry : o.dryRun = false) (hskip : o.skipGh = false)
    (hverr : (env ("gh" :: ["release", "view", tag, "--repo", repo])).error
      = false) :
    (((env ("gh" :: ["release", "view", tag, "--repo", repo])).status =
        some 0 →
      ((uploadToGitHubRelease env resolve tag repo staged o).1.countP
        (fun e => isUploadCall e)) = 1 ∧
      ((uploadToGitHubRelease env resolve tag repo staged o).1.countP
        (fun e => isCreateCall e)) = 0 ∧
      "--clobber" ∈ uploadArgsFor tag staged repo) ∧
     (∀ n : Int, n ≠ 0 →
      (env ("gh" :: ["release", "view", tag, "--repo", repo])).status =
        some n →
      ((uploadToGitHubRelease env resolve tag repo staged o).1.countP
        (fun e => isCreateCall e)) = 1 ∧
      ((uploadToGitHubRelease env resolve tag repo staged o).1.countP
        (fun e => isUploadCall e)) = 0 ∧
      (uploadToGitHubRelease env resolve tag repo staged o).2 =
        outcomeExcept (runCommand env "gh"
          (createArgsFor resolve tag staged repo o.draft o.notesFile
            o.generateNotes) false false).2)) := by
  have hview := runCommand_view env tag repo hverr
  constructor
  · intro h0
    have hgh : ghReleaseExists env tag repo false =
        ([Effect.call "gh" ["release", "view", tag, "--repo", repo] true],
          Except.ok true) := by
      rw [ghReleaseExists, hview]
      simp [ghCheck, h0]
    rw [uploadToGitHubRelease, hskip, if_neg (by simp), hdry, hgh]
    refine ⟨?_, ?_, by simp [uploadArgsFor]⟩ <;>
      simp [uploadStep, hdry, runCommand_fst, isUploadCall, isCreateCall,
        uploadArgsFor]
  · intro n hn hst
    have hgh : ghReleaseExists env tag repo false =
        ([Effect.call "gh" ["release", "view", tag, "--repo", repo] true],
          Except.ok false) := by
      rw [ghReleaseExists, hview]
      simp [ghCheck, hst, hn]
    rw [uploadToGitHubRelease, hskip, if_neg (by simp), hdry, hgh]
    refine ⟨?_, ?_, ?_⟩ <;>
      simp [uploadStep, hdry, runCommand_fst, isUploadCall, isCreateCall,
        createArgsFor]

/-- A process environment that reports exit status 0 for every command. -/
def envExit0 : CmdEnv := fun _ => ⟨false, "", some 0, "", ""⟩

/-- Witness for claim C2: a remote reporting 0 for view yields one
upload call, one reporting 2 yields one create call. -/
theorem claim2_witness :
    (((uploadToGitHubRelease envExit0 id "v1.0" "r/r" "s.dmg"
        initOptions).1.countP (fun e => isUploadCall e)) = 1 ∧
      ((uploadToGitHubRelease envExit0 id "v1.0" "r/r" "s.dmg"
        initOptions).1.countP (fun e => isCreateCall e)) = 0) ∧
    (((uploadToGitHubRelease envExit2 id "v1.0" "r/r" "s.dmg"
        initOptions).1.countP (fun e => isCreateCall e)) = 1 ∧
      ((uploadToGitHubRelease envExit2 id "v1.0" "r/r" "s.dmg"
        initOptions).1.countP (fun e => isUploadCall e)) = 0) :=
  ⟨⟨((claim2_release_state_transition envExit0 id "v1.0" "r/r" "s.dmg"
      initOptions rfl rfl rfl).1 rfl).1,
    ((claim2_release_state_transition envExit0 id "v1.0" "r/r" "s.dmg"
      initOptions rfl rfl rfl).1 rfl).2.1⟩,
   ⟨((claim2_release_state_transition envExit2 id "v1.0" "r/r" "s.dmg"
      initOptions rfl rfl rfl).2 2 (by decide) rfl).1,
    ((claim2_release_state_transition envExit2 id "v1.0" "r/r" "s.dmg"
      initOptions rfl rfl rfl).2 2 (by decide) rfl).2.1⟩⟩

/-! ### Claim C9: dry-run always previews a create -/

/-- Claim C9: under dry-run the existence check returns false for every
remote state (the synthetic success of the view command is discarded),
so the publisher records exactly the unspawned view and create previews,
one create and no upload. -/
theorem claim9_dry_run_always_creates (env : CmdEnv)
    (resolve : String → String) (tag repo staged : String)
    (o : PublishOptions) (hdry : o.dryRun = true) (hskip : o.skipGh = false) :
    (ghReleaseExists env tag repo true).2 = Except.ok false ∧
    (uploadToGitHubRelease env resolve tag repo staged o).1 =
      [Effect.call "gh" ["release", "view", tag, "--repo", repo] false,
       Effect.call "gh" (createArgsFor resolve tag staged repo o.draft
         o.notesFile o.generateNotes) false] ∧
    ((uploadToGitHubRelease env resolve tag repo staged o).1.countP
      (fun e => isCreateCall e)) = 1 ∧
    ((uploadToGitHubRelease env resolve tag repo staged o).1.countP
      (fun e => isUploadCall e)) = 0 := by
  have hgh : ghReleaseExists env tag repo true =
      ([Effect.call "gh" ["release", "view", tag, "--repo", repo] false],
        Except.ok false) := by
    simp [ghReleaseExists, runCommand, ghCheck]
  refine ⟨by rw [hgh], ?_, ?_, ?_⟩ <;>
    rw [uploadToGitHubRelease, hskip, if_neg (by simp), hdry, hgh] <;>
    simp [uploadStep, hdry, runCommand, isCreateCall, isUploadCall,
      createArgsFor]

/-- The options record with only the dry-run flag set. -/
def dryOpts : PublishOptions := { initOptions with dryRun := true }

/-- Witness for claim C9 against a remote that would report the release
as existing. -/
theorem claim9_witness :
    (ghReleaseExists envExit0 "v1.0" "r/r" true).2 = Except.ok false ∧
    (uploadToGitHubRelease envExit0 id "v1.0" "r/r" "s.dmg" dryOpts).1 =
      [Effect.call "gh" ["release", "view", "v1.0", "--repo", "r/r"] false,
       Effect.call "gh" (createArgsFor id "v1.0" "s.dmg" "r/r" dryOpts.draft
         dryOpts.notesFile dryOpts.generateNotes) false] ∧
    ((uploadToGitHubRelease envExit0 id "v1.0" "r/r" "s.dmg"
      dryOpts).1.countP (fun e => isCreateCall e)) = 1 ∧
    ((uploadToGitHubRelease envExit0 id "v1.0" "r/r" "s.dmg"
      dryOpts).1.countP (fun e => isUploadCall e)) = 0 :=
  claim9_dry_run_always_creates envExit0 id "v1.0" "r/r" "s.dmg" dryOpts
    rfl rfl

/-! ### The pipeline (`main`, lines 371-401)

The filesystem is a partial map from path strings to file contents;
`path.resolve` and `path.join` are carried as abstract functions.  Each
step returns its recorded effects and an `Except` outcome; a thrown
error stops the chain (the script's top-level catch exits 1). -/

/-- Sequencing of two effectful steps: a throw in the first stops the
run with the effects recorded so far. -/
def stepThen {α β : Type} (p : List Effect × Except String α)
    (k : α → List Effect × Except String β) :
    List Effect × Except String β :=
  match p.2 with
  | .error m => (p.1, .error m)
  | .ok a => (p.1 ++ (k a).1, (k a).2)

/-- `options.tag || \x7bv$\x7bversion\x7d\x7d` (line 373): an empty or absent tag
falls back to the version tag. -/
def tagOf (version : String) : Option String → String
  | some t => if t = "" then "v" ++ version else t
  | none => "v" ++ version

/-- `buildUniversalIfNeeded(version, options)` (lines 169-180). -/
def buildUniversalIfNeeded (env : CmdEnv) (skipBuild dryRun : Bool) :
    List Effect × Except String Unit :=
  if skipBuild then ([], .ok ())
  else
    let p := runCommand env "npm"
      ["run", "tauri", "build", "--", "--target", "universal-apple-darwin"]
      dryRun false
    (p.1, outcomeExcept p.2)

/-- The default bundle output path joined by `path.resolve`
(lines 190-198). -/
def defaultDmgRel (version : String) : String :=
  "src-tauri/target/universal-apple-darwin/release/bundle/dmg/" ++
    "Cockpit Tools_" ++ version ++ "_universal.dmg"

/-- `resolveSourceDmgPath(version, options)` (lines 182-202): the
existence check runs unconditionally, dry-run or not.  A present but
empty `assetPath` is falsy in JavaScript and falls back to the default
path. -/
def resolveSourceDmgPath (fs : String → Option (List Char))
    (resolve : String → String) (version : String)
    (assetPath : Option String) : List Effect × Except String String :=
  ([],
   match assetPath with
   | some ap =>
     if ap = "" then
       if (fs (resolve (defaultDmgRel version))).isSome then
         .ok (resolve (defaultDmgRel version))
       else .error ("Universal DMG not found: " ++
         resolve (defaultDmgRel version))
     else
       if (fs (resolve ap)).isSome then .ok (resolve ap)
       else .error ("Asset not found: " ++ resolve ap)
   | none =>
     if (fs (resolve (defaultDmgRel version))).isSome then
       .ok (resolve (defaultDmgRel version))
     else .error ("Universal DMG not found: " ++
       resolve (defaultDmgRel version)))

/-- The staged path `path.join(resolve('release-artifacts'),
'Cockpit.Tools_<version>_universal.dmg')` (lines 206-208). -/
def stagedPathOf (resolve : String → String)
    (joinPath : String → String → String) (version : String) : String :=
  joinPath (resolve "release-artifacts")
    ("Cockpit.Tools_" ++ version ++ "_universal.dmg")

/-- `stageReleaseAsset(sourcePath, version, options)` (lines 204-224):
under dry-run the copy is skipped and the filesystem unchanged;
otherwise the artifacts directory is created, the asset copied unless
source and target resolve to the same path, and the staged file must
exist afterwards.  Returns the updated filesystem and the staged
path. -/
def stageReleaseAsset (fs : String → Option (List Char))
    (resolve : String → String) (joinPath : String → String → String)
    (sourcePath version : String) (dryRun : Bool) :
    List Effect × Except String ((String → Option (List Char)) × String) :=
  if dryRun then ([], .ok (fs, stagedPathOf resolve joinPath version))
  else
    if resolve sourcePath = resolve (stagedPathOf resolve joinPath version)
    then
      if (fs (stagedPathOf resolve joinPath version)).isSome then
        ([Effect.mkdir (resolve "release-artifacts")],
          .ok (fs, stagedPathOf resolve joinPath version))
      else
        ([Effect.mkdir (resolve "release-artifacts")],
          .error ("Staged DMG not found: " ++
            stagedPathOf resolve joinPath version))
    else
      if (fs sourcePath).isSome then
        ([Effect.mkdir (resolve "release-artifacts"),
          Effect.copy sourcePath (stagedPathOf resolve joinPath version)],
          .ok (fun p => if p = stagedPathOf resolve joinPath version then
            fs sourcePath else fs p,
            stagedPathOf resolve joinPath version))
      else
        ([Effect.mkdir (resolve "release-artifacts"),
          Effect.copy sourcePath (stagedPathOf resolve joinPath version)],
          .error ("Staged DMG not found: " ++
            stagedPathOf resolve joinPath version))

/-- `sha256(filePath)` applied through the filesystem (lines 226-231 via
line 390): read the file and hash its bytes. -/
def computeDigest (fs : String → Option (List Char)) (p : String) :
    List Effect × Except String (List Char) :=
  match fs p with
  | some content =>
    ([Effect.hashFile p], .ok (sha256hex (content.map Char.toNat)))
  | none => ([Effect.hashFile p], .error ("ENOENT: no such file " ++ p))

/-- `ensureGhAvailable(options)` (lines 233-242). -/
def ensureGhAvailable (env : CmdEnv) (skipGh dryRun : Bool) :
    List Effect × Except String Unit :=
  if skipGh then ([], .ok ())
  else
    stepThen
      (let p := runCommand env "gh" ["--version"] dryRun false
       (p.1, outcomeExcept p.2))
      (fun _ =>
        let p := runCommand env "gh" ["auth", "status"] dryRun false
        (p.1, outcomeExcept p.2))

/-- `updateCaskFile` as run by `main` (lines 311-368): the skip check,
the existence check on the resolved cask path, the read, and the pure
update outcome decide the recorded effects. -/
def updateCaskStep (fs : String → Option (List Char))
    (resolve : String → String) (caskPath : String)
    (version digest : List Char) (skipCask dryRun : Bool) :
    List Effect × Except String Unit :=
  if skipCask then ([], .ok ())
  else
    match fs (resolve caskPath) with
    | none => ([], .error ("Cask file not found: " ++ resolve caskPath))
    | some original =>
      match updateCaskFile original version digest false dryRun with
      | .skipped => ([Effect.readFile (resolve caskPath)], .ok ())
      | .err m => ([Effect.readFile (resolve caskPath)], .error m)
      | .noWrite => ([Effect.readFile (resolve caskPath)], .ok ())
      | .write _ =>
        ([Effect.readFile (resolve caskPath),
          Effect.writeFile (resolve caskPath)], .ok ())

/-- `main()` (lines 371-401) after argument parsing and version reading:
build, resolve the source artifact, stage it, hash the dry-selected
path (line 390), check the CLI, publish the release, update the cask. -/
def runPipeline (env : CmdEnv) (fs : String → Option (List Char))
    (resolve : String → String) (joinPath : String → String → String)
    (version : String) (o : PublishOptions) :
    List Effect × Except String Unit :=
  stepThen (buildUniversalIfNeeded env o.skipBuild o.dryRun) (fun _ =>
    stepThen (resolveSourceDmgPath fs resolve version o.assetPath)
      (fun sourcePath =>
        stepThen (stageReleaseAsset fs resolve joinPath sourcePath version
            o.dryRun) (fun st =>
          stepThen (computeDigest st.1
              (if o.dryRun then sourcePath else st.2)) (fun digest =>
            stepThen (ensureGhAvailable env o.skipGh o.dryRun) (fun _ =>
              stepThen (uploadToGitHubRelease env resolve
                  (tagOf version o.tag) o.repo st.2 o) (fun _ =>
                updateCaskStep st.1 resolve o.caskPath version.toList digest
                  o.skipCask o.dryRun))))))

/-! ### Claim C3: dry-run mutates nothing -/

/-- Dry-run `runCommand` is a synthetic success with an unspawned
call. -/
theorem runCommand_dry (env : CmdEnv) (cmd : String) (args : List String)
    (af : Bool) :
    runCommand env cmd args true af =
      ([Effect.call cmd args false], RunOutcome.ok syntheticSuccess) := rfl

/-- Membership in a sequenced trace comes from the first step or from
the continuation of its successful value. -/
theorem stepThen_mem {α β : Type} (p : List Effect × Except String α)
    (k : α → List Effect × Except String β) (e : Effect)
    (he : e ∈ (stepThen p k).1) :
    e ∈ p.1 ∨ ∃ a, p.2 = Except.ok a ∧ e ∈ (k a).1 := by
  cases hp : p.2 with
  | error m => rw [stepThen, hp] at he; exact Or.inl he
  | ok a =>
    rw [stepThen, hp] at he
    rcases List.mem_append.mp he with h1 | h2
    · exact Or.inl h1
    · exact Or.inr ⟨a, rfl, h2⟩

/-- A failed first step determines the sequenced pair. -/
theorem stepThen_error {α β : Type} (p : List Effect × Except String α)
    (k : α → List Effect × Except String β) (m : String)
    (hp : p.2 = Except.error m) : stepThen p k = (p.1, .error m) := by
  rw [stepThen, hp]

/-- A successful first step appends the continuation's trace. -/
theorem stepThen_ok {α β : Type} (p : List Effect × Except String α)
    (k : α → List Effect × Except String β) (a : α)
    (hp : p.2 = Except.ok a) :
    stepThen p k = (p.1 ++ (k a).1, (k a).2) := by
  rw [stepThen, hp]

/-- Dry-run existence check: unspawned view call, always false. -/
theorem ghReleaseExists_dry (env : CmdEnv) (tag repo : String) :
    ghReleaseExists env tag repo true =
      ([Effect.call "gh" ["release", "view", tag, "--repo", repo] false],
        Except.ok false) := by
  simp [ghReleaseExists, runCommand, ghCheck]

/-- Dry-run build step: nothing mutating. -/
theorem build_dry_effects (env : CmdEnv) (sb : Bool) :
    ∀ e ∈ (buildUniversalIfNeeded env sb true).1, e.mutating = false := by
  intro e he
  cases sb <;> simp [buildUniversalIfNeeded, runCommand] at he
  subst he
  rfl

/-- Digest step: the hash effect is never mutating. -/
theorem computeDigest_effects (fs : String → Option (List Char))
    (p : String) : ∀ e ∈ (computeDigest fs p).1, e.mutating = false := by
  intro e he
  cases hf : fs p <;> simp [computeDigest, hf] at he <;>
    subst he <;> rfl

/-- Dry-run CLI check: two unspawned calls. -/
theorem ensureGh_dry_effects (env : CmdEnv) (sg : Bool) :
    ∀ e ∈ (ensureGhAvailable env sg true).1, e.mutating = false := by
  intro e he
  cases sg <;>
    simp [ensureGhAvailable, runCommand, stepThen, outcomeExcept] at he
  rcases he with rfl | rfl <;> rfl

/-- Dry-run publisher: unspawned view and create calls only. -/
theorem upload_dry_effects (env : CmdEnv) (resolve : String → String)
    (tag repo staged : String) (o : PublishOptions)
    (hdry : o.dryRun = true) :
    ∀ e ∈ (uploadToGitHubRelease env resolve tag repo staged o).1,
      e.mutating = false := by
  intro e he
  rw [uploadToGitHubRelease] at he
  by_cases hsk : o.skipGh = true
  · simp [hsk] at he
  · rw [if_neg hsk, hdry, ghReleaseExists_dry] at he
    simp [uploadStep, hdry, runCommand] at he
    rcases he with rfl | rfl <;> rfl

/-- Under dry-run the pure cask update never decides to write. -/
theorem updateCaskFile_dry_not_write (orig v d : List Char) (sk : Bool)
    (c : List Char) : updateCaskFile orig v d sk true ≠ .write c := by
  cases sk
  · rw [updateCaskFile]
    cases hr : recomputeCask orig v d
    · simp [hr]
    · simp only [Bool.false_eq_true, if_false, hr]
      split <;> simp
  · simp [updateCaskFile]

/-- Dry-run cask step: at most a read. -/
theorem updateCaskStep_dry_effects (fs : String → Option (List Char))
    (resolve : String → String) (caskPath : String) (v d : List Char)
    (sk : Bool) :
    ∀ e ∈ (updateCaskStep fs resolve caskPath v d sk true).1,
      e.mutating = false := by
  intro e he
  rw [updateCaskStep] at he
  by_cases hsk : sk = true
  · simp [hsk] at he
  · rw [if_neg hsk] at he
    cases hf : fs (resolve caskPath) with
    | none => simp [hf] at he
    | some original =>
      simp only [hf] at he
      cases hu : updateCaskFile original v d false true with
      | write c =>
        exact absurd hu (updateCaskFile_dry_not_write original v d false c)
      | skipped => simp [hu] at he; subst he; rfl
      | err m => simp [hu] at he; subst he; rfl
      | noWrite => simp [hu] at he; subst he; rfl

/-- Claim C3: a dry-run of the full pipeline records no mutating effect
(no directory creation, no copy, no manifest write, no spawned
process), and every dry-run command invocation returns the synthetic
success result without spawning. -/
theorem claim3_dry_run_mutates_nothing (env : CmdEnv)
    (fs : String → Option (List Char)) (resolve : String → String)
    (joinPath : String → String → String) (version : String)
    (o : PublishOptions) (hdry : o.dryRun = true) :
    (∀ e ∈ (runPipeline env fs resolve joinPath version o).1,
      e.mutating = false) ∧
    (∀ (cmd : String) (args : List String) (af : Bool),
      runCommand env cmd args true af =
        ([Effect.call cmd args false], RunOutcome.ok syntheticSuccess)) := by
  refine ⟨?_, fun cmd args af => rfl⟩
  intro e he
  rw [runPipeline, hdry] at he
  rcases stepThen_mem _ _ _ he with h | ⟨_, _, he⟩
  · exact build_dry_effects env o.skipBuild e h
  rcases stepThen_mem _ _ _ he with h | ⟨src, hsrc, he⟩
  · simp [resolveSourceDmgPath] at h
  rcases stepThen_mem _ _ _ he with h | ⟨st, hst, he⟩
  · simp [stageReleaseAsset] at h
  rcases stepThen_mem _ _ _ he with h | ⟨dg, hdg, he⟩
  · exact computeDigest_effects _ _ e h
  rcases stepThen_mem _ _ _ he with h | ⟨_, _, he⟩
  · exact ensureGh_dry_effects env o.skipGh e h
  rcases stepThen_mem _ _ _ he with h | ⟨_, _, he⟩
  · exact upload_dry_effects env resolve _ _ _ o hdry e h
  · exact updateCaskStep_dry_effects _ _ _ _ _ _ e he

/-- A one-file filesystem fixture for the pipeline witnesses. -/
def fsOne (path : String) (content : List Char) :
    String → Option (List Char) :=
  fun p => if p = path then some content else none

/-- Witness for claim C3: a concrete dry-run trace is wholly
non-mutating. -/
theorem claim3_witness :
    (∀ e ∈ (runPipeline envExit0
        (fsOne (defaultDmgRel "1.0") ['d', 'm', 'g']) id
        (fun a b => a ++ "/" ++ b) "1.0" dryOpts).1,
      e.mutating = false) ∧
    (∀ (cmd : String) (args : List String) (af : Bool),
      runCommand envExit0 cmd args true af =
        ([Effect.call cmd args false], RunOutcome.ok syntheticSuccess)) :=
  claim3_dry_run_mutates_nothing envExit0
    (fsOne (defaultDmgRel "1.0") ['d', 'm', 'g']) id
    (fun a b => a ++ "/" ++ b) "1.0" dryOpts rfl

/-! ### Claim C10: unconditional source check and hash path selection -/

/-- The effect list of any `runCommand`: one call, spawned iff not
dry-run. -/
theorem runCommand_effects (env : CmdEnv) (cmd : String)
    (args : List String) (d af : Bool) :
    (runCommand env cmd args d af).1 = [Effect.call cmd args (!d)] := by
  cases d
  · simpa using runCommand_fst env cmd args af
  · rfl

/-- The build step never hashes. -/
theorem build_no_hash (env : CmdEnv) (sb d : Bool) (p : String) :
    Effect.hashFile p ∉ (buildUniversalIfNeeded env sb d).1 := by
  intro h
  cases sb <;> simp [buildUniversalIfNeeded, runCommand_effects] at h

/-- The CLI check never hashes. -/
theorem ensureGh_no_hash (env : CmdEnv) (sg d : Bool) (p : String) :
    Effect.hashFile p ∉ (ensureGhAvailable env sg d).1 := by
  intro h
  rw [ensureGhAvailable] at h
  by_cases hsk : sg = true
  · simp [hsk] at h
  · rw [if_neg hsk] at h
    rcases stepThen_mem _ _ _ h with h2 | ⟨_, _, h2⟩ <;>
      simp [runCommand_effects] at h2

/-- The existence check keeps the view command's effect list. -/
theorem ghCheck_fst (d : Bool) (pr : List Effect × RunOutcome) :
    (ghCheck d pr).1 = pr.1 := by
  rcases pr with ⟨eff, out⟩
  cases out with
  | ok r =>
    rw [ghCheck]
    split
    · rfl
    · split <;> rfl
  | threw m => rfl

/-- The view call recorded by the existence check. -/
theorem ghReleaseExists_fst (env : CmdEnv) (tag repo : String) (d : Bool) :
    (ghReleaseExists env tag repo d).1 =
      [Effect.call "gh" ["release", "view", tag, "--repo", repo] (!d)] := by
  rw [ghReleaseExists, ghCheck_fst, runCommand_effects]

/-- Every publisher effect is a command invocation. -/
theorem upload_effects_calls (env : CmdEnv) (resolve : String → String)
    (tag repo staged : String) (o : PublishOptions) :
    ∀ e ∈ (uploadToGitHubRelease env resolve tag repo staged o).1,
      ∃ c a s, e = Effect.call c a s := by
  intro e he
  rw [uploadToGitHubRelease] at he
  by_cases hsk : o.skipGh = true
  · simp [hsk] at he
  · rw [if_neg hsk] at he
    rcases hgh : ghReleaseExists env tag repo o.dryRun with ⟨eff, res⟩
    have heff : eff = [Effect.call "gh"
        ["release", "view", tag, "--repo", repo] (!o.dryRun)] := by
      have h1 := ghReleaseExists_fst env tag repo o.dryRun
      rw [hgh] at h1
      exact h1
    rw [hgh] at he
    subst heff
    cases res with
    | error m =>
      simp [uploadStep] at he
      subst he
      exact ⟨_, _, _, rfl⟩
    | ok present =>
      cases present <;>
        simp [uploadStep, runCommand_effects] at he <;>
        rcases he with rfl | rfl <;> exact ⟨_, _, _, rfl⟩

/-- The staging step never hashes. -/
theorem stage_no_hash (fs : String → Option (List Char))
    (resolve : String → String) (joinPath : String → String → String)
    (sp version : String) (d : Bool) (p : String) :
    Effect.hashFile p ∉
      (stageReleaseAsset fs resolve joinPath sp version d).1 := by
  intro h
  rw [stageReleaseAsset] at h
  by_cases hd : d = true
  · simp [hd] at h
  · rw [if_neg hd] at h
    split at h <;> split at h <;> simp at h

/-- The cask step never hashes. -/
theorem updateCask_no_hash (fs : String → Option (List Char))
    (resolve : String → String) (caskPath : String) (v d : List Char)
    (sk dr : Bool) (p : String) :
    Effect.hashFile p ∉
      (updateCaskStep fs resolve caskPath v d sk dr).1 := by
  intro h
  rw [updateCaskStep] at h
  by_cases hsk : sk = true
  · simp [hsk] at h
  · rw [if_neg hsk] at h
    cases hf : fs (resolve caskPath) with
    | none => simp [hf] at h
    | some original =>
      simp only [hf] at h
      cases hu : updateCaskFile original v d false dr <;> simp [hu] at h

/-- The digest step hashes exactly the path it was given. -/
theorem computeDigest_hash_mem (fs : String → Option (List Char))
    (q p : String) (h : Effect.hashFile p ∈ (computeDigest fs q).1) :
    p = q := by
  cases hf : fs q <;> simp [computeDigest, hf] at h <;> exact h

/-- A successful staging step returns the staged path. -/
theorem stage_snd (fs : String → Option (List Char))
    (resolve : String → String) (joinPath : String → String → String)
    (sp version : String) (d : Bool)
    (st : (String → Option (List Char)) × String)
    (h : (stageReleaseAsset fs resolve joinPath sp version d).2 =
      Except.ok st) :
    st.2 = stagedPathOf resolve joinPath version := by
  rw [stageReleaseAsset] at h
  by_cases hd : d = true
  · rw [if_pos hd] at h
    injection h with h2
    rw [← h2]
  · rw [if_neg hd] at h
    split at h <;> split at h <;> simp at h <;> rw [← h]

/-- Claim C10: the resolved source artifact must exist even in dry-run
(a missing default DMG aborts a dry run with the not-found error), and
every hash effect of a run is on the source path under dry-run and on
the staged path otherwise. -/
theorem claim10_source_check_and_hash_path (env : CmdEnv)
    (fs : String → Option (List Char)) (resolve : String → String)
    (joinPath : String → String → String) (version : String)
    (o : PublishOptions) :
    (o.dryRun = true → o.assetPath = none →
      fs (resolve (defaultDmgRel version)) = none →
      (runPipeline env fs resolve joinPath version o).2 =
        Except.error ("Universal DMG not found: " ++
          resolve (defaultDmgRel version))) ∧
    (∀ src, (resolveSourceDmgPath fs resolve version o.assetPath).2 =
        Except.ok src →
      ∀ p, Effect.hashFile p ∈
          (runPipeline env fs resolve joinPath version o).1 →
        p = if o.dryRun then src
          else stagedPathOf resolve joinPath version) := by
  constructor
  · intro hdry hap hmiss
    have hb : (buildUniversalIfNeeded env o.skipBuild true).2 =
        Except.ok () := by
      cases o.skipBuild <;>
        simp [buildUniversalIfNeeded, runCommand, outcomeExcept]
    have hres : (resolveSourceDmgPath fs resolve version o.assetPath).2 =
        Except.error ("Universal DMG not found: " ++
          resolve (defaultDmgRel version)) := by
      rw [hap]
      simp [resolveSourceDmgPath, hmiss]
    rw [runPipeline, hdry, stepThen_ok _ _ () hb]
    rw [stepThen_error _ _ _ hres]
  · intro src hsrc p hp
    rw [runPipeline] at hp
    rcases stepThen_mem _ _ _ hp with h | ⟨_, _, hp⟩
    · exact absurd h (build_no_hash env o.skipBuild o.dryRun p)
    rcases stepThen_mem _ _ _ hp with h | ⟨src2, hsrc2, hp⟩
    · simp [resolveSourceDmgPath] at h
    have hs2 : src2 = src := by
      rw [hsrc] at hsrc2
      injection hsrc2 with h2
      exact h2.symm
    subst hs2
    rcases stepThen_mem _ _ _ hp with h | ⟨st, hst, hp⟩
    · exact absurd h (stage_no_hash fs resolve joinPath src2 version
        o.dryRun p)
    rcases stepThen_mem _ _ _ hp with h | ⟨dg, hdg, hp⟩
    · have hp2 := computeDigest_hash_mem st.1 _ p h
      rw [stage_snd fs resolve joinPath src2 version o.dryRun st hst] at hp2
      exact hp2
    rcases stepThen_mem _ _ _ hp with h | ⟨_, _, hp⟩
    · exact absurd h (ensureGh_no_hash env o.skipGh o.dryRun p)
    rcases stepThen_mem _ _ _ hp with h | ⟨_, _, hp⟩
    · obtain ⟨c, a, s, hcs⟩ := upload_effects_calls env resolve
        (tagOf version o.tag) o.repo st.2 o _ h
      cases hcs
    · exact absurd hp (updateCask_no_hash st.1 resolve o.caskPath
        version.toList dg o.skipCask o.dryRun p)

/-- Witness for claim C10: a dry run against an empty filesystem aborts
with the not-found error, and a dry run against a present source hashes
only the source path. -/
theorem claim10_witness :
    (runPipeline envExit0 (fun _ => none) id (fun a b => a ++ "/" ++ b)
        "1.0" dryOpts).2 =
      Except.error ("Universal DMG not found: " ++
        id (defaultDmgRel "1.0")) ∧
    (∀ p, Effect.hashFile p ∈
        (runPipeline envExit0 (fsOne (defaultDmgRel "1.0") ['d']) id
          (fun a b => a ++ "/" ++ b) "1.0" dryOpts).1 →
      p = if dryOpts.dryRun then id (defaultDmgRel "1.0")
        else stagedPathOf id (fun a b => a ++ "/" ++ b) "1.0") :=
  ⟨(claim10_source_check_and_hash_path envExit0 (fun _ => none) id
      (fun a b => a ++ "/" ++ b) "1.0" dryOpts).1 rfl rfl rfl,
   (claim10_source_check_and_hash_path envExit0
      (fsOne (defaultDmgRel "1.0") ['d']) id
      (fun a b => a ++ "/" ++ b) "1.0" dryOpts).2
      (id (defaultDmgRel "1.0")) (by rfl)⟩
